import Mathlib

/-!
# Verification of the tracking-by-detection exercise repository

Shallow embedding of the two notebooks (`solution.py`, the ILP tracking
pipeline, and `solution3_detection.py`, the detection pipeline) and proofs
about the embedded operations.

Conventions of the embedding:
* networkx `DiGraph` objects become explicit node/edge lists with attribute
  records; attribute values that may be absent in Python are `Option`s.
* Python floats become `ℚ` (all arithmetic the code performs on positions is
  exact except square roots); a float that is a Euclidean norm is represented
  by its radicand (the squared norm, exact in `ℚ`), and theorems recover the
  norm itself as `Real.sqrt` of that stored rational.
* In-place mutation becomes explicit state passing: a pass that mutates a
  graph is a function `Graph → Graph`.
* The third-party ILP layer (motile) is not part of the repository; its
  contract is modelled from the spec (§4.5) as: return the induced subgraph
  of a cost-minimal selection satisfying the incidence, `MaxParents 1` and
  `MaxChildren 2` constraints.
-/

/-- Attributes of a candidate/solution graph node in `solution.py`: `t`, `x`,
`y` are always present (set by `nodes_from_segmentation`); the remaining
attributes are added by later pipeline stages and may be absent. -/
structure NodeAttrs where
  t : ℕ
  x : ℚ
  y : ℚ
  ignore_appear : Option Bool := none
  gt : Option Bool := none
  tracklet_id : Option ℕ := none
deriving DecidableEq, Repr

/-- Attributes of a candidate-graph edge. The `drift_dist` float stored by
`add_drift_dist_attr` is a Euclidean norm; it is represented exactly by its
square `drift_dist_sq : ℚ` (the norm is `Real.sqrt` of it). -/
structure EdgeAttrs where
  drift_dist_sq : Option ℚ := none
  gt : Option Bool := none
deriving DecidableEq, Repr

/-- A node of the candidate/solution graph: integer id plus attributes. -/
structure CGNode where
  id : ℕ
  attrs : NodeAttrs
deriving DecidableEq, Repr

/-- A directed edge of the candidate/solution graph. -/
structure CGEdge where
  src : ℕ
  tgt : ℕ
  attrs : EdgeAttrs := {}
deriving DecidableEq, Repr

/-- A networkx `DiGraph` as used for candidate and solution graphs. -/
structure Graph where
  nodes : List CGNode
  edges : List CGEdge
deriving DecidableEq, Repr

/-- Lookup a node by id (`cand_graph.nodes[node]`). -/
def findNode? (g : Graph) (i : ℕ) : Option CGNode :=
  g.nodes.find? (fun n => n.id == i)

/-- `i in cand_graph` membership test. -/
def hasNode (g : Graph) (i : ℕ) : Prop :=
  (g.nodes.any (fun n => n.id == i)) = true

instance (g : Graph) (i : ℕ) : Decidable (hasNode g i) := by
  unfold hasNode; infer_instance

/-- Lookup an edge by its (source, target) key. -/
def findEdge? (g : Graph) (s t : ℕ) : Option CGEdge :=
  g.edges.find? (fun e => e.src == s && e.tgt == t)

/-- `(u, v) in cand_graph.edges` membership test. -/
def hasEdge (g : Graph) (s t : ℕ) : Prop :=
  (g.edges.any (fun e => e.src == s && e.tgt == t)) = true

instance (g : Graph) (s t : ℕ) : Decidable (hasEdge g s t) := by
  unfold hasEdge; infer_instance

/-- Update the attributes of the node keyed `i` in place
(`cand_graph.nodes[i][...] = ...`). -/
def updateNodeAttrs (g : Graph) (i : ℕ) (f : NodeAttrs → NodeAttrs) : Graph :=
  { g with nodes := g.nodes.map (fun n => if n.id = i then { n with attrs := f n.attrs } else n) }

/-- Update the attributes of the edge keyed `(s, t)` in place
(`cand_graph.edges[(s, t)][...] = ...`). -/
def updateEdgeAttrs (g : Graph) (s t : ℕ) (f : EdgeAttrs → EdgeAttrs) : Graph :=
  { g with edges := g.edges.map (fun e => if e.src = s ∧ e.tgt = t then { e with attrs := f e.attrs } else e) }

/-- Well-formedness invariants a networkx `DiGraph` guarantees and the
pipeline relies on: node ids are unique, edge keys are unique, and edge
endpoints exist as nodes. -/
def WFGraph (g : Graph) : Prop :=
  (g.nodes.map (fun n => n.id)).Nodup ∧
  (g.edges.map (fun e => (e.src, e.tgt))).Nodup ∧
  (∀ e ∈ g.edges, hasNode g e.src ∧ hasNode g e.tgt)

instance (g : Graph) : Decidable (WFGraph g) := by
  unfold WFGraph; infer_instance

/-! ## 4.4a Appear-ignore tagger (`add_appear_ignore_attr`, solution.py:703-710)

```python
def add_appear_ignore_attr(cand_graph):
    for node in cand_graph.nodes():
        time = cand_graph.nodes[node]["t"]
        pos_x = cand_graph.nodes[node]["x"]
        if time == 0 or pos_x >= 710:
            cand_graph.nodes[node]["ignore_appear"] = True
```
The loop iterates over node ids, reads `t` and `x` from the live graph, and
sets `ignore_appear` on the current node only. -/

/-- One iteration of the `add_appear_ignore_attr` loop for node id `i`. -/
def appearStep (acc : Graph) (i : ℕ) : Graph :=
  match findNode? acc i with
  | none => acc
  | some n =>
    if n.attrs.t = 0 ∨ (710 : ℚ) ≤ n.attrs.x then
      updateNodeAttrs acc i (fun a => { a with ignore_appear := some true })
    else
      acc

/-- `add_appear_ignore_attr` (solution.py:703-710). -/
def add_appear_ignore_attr (g : Graph) : Graph :=
  (g.nodes.map (fun n => n.id)).foldl appearStep g

/-- The per-node update performed by `add_appear_ignore_attr`. -/
def appearApply (n : CGNode) : CGNode :=
  if n.attrs.t = 0 ∨ (710 : ℚ) ≤ n.attrs.x then
    { n with attrs := { n.attrs with ignore_appear := some true } }
  else n

/-! ## 4.4b Drift-distance tagger (`add_drift_dist_attr`, solution.py:810-823)

```python
drift = np.array([-10, 0])
def add_drift_dist_attr(cand_graph, drift):
    for edge in cand_graph.edges():
        source, target = edge
        source_data = cand_graph.nodes[source]
        source_pos = np.array([source_data["x"], source_data["y"]])
        target_data = cand_graph.nodes[target]
        target_pos = np.array([target_data["x"], target_data["y"]])
        expected_target_pos = source_pos + drift
        drift_dist = np.linalg.norm(expected_target_pos - target_pos)
        cand_graph.edges[edge]["drift_dist"] = drift_dist
```
The stored float `np.linalg.norm(expected - target)` is represented exactly
by its radicand `drift_dist_sq`; theorems recover the norm as `Real.sqrt`. -/

/-- The squared drift distance of an edge from source node record `ns` to
target node record `nt` under drift vector `d`: the radicand of
`np.linalg.norm(source_pos + drift - target_pos)`. -/
def driftVal (ns nt : CGNode) (d : ℚ × ℚ) : ℚ :=
  (ns.attrs.x + d.1 - nt.attrs.x) ^ 2 + (ns.attrs.y + d.2 - nt.attrs.y) ^ 2

/-- One iteration of the `add_drift_dist_attr` loop for edge key `k`. -/
def driftStep (d : ℚ × ℚ) (acc : Graph) (k : ℕ × ℕ) : Graph :=
  match findNode? acc k.1, findNode? acc k.2 with
  | some ns, some nt =>
      updateEdgeAttrs acc k.1 k.2 (fun a => { a with drift_dist_sq := some (driftVal ns nt d) })
  | _, _ => acc

/-- `add_drift_dist_attr` (solution.py:812-821). -/
def add_drift_dist_attr (g : Graph) (d : ℚ × ℚ) : Graph :=
  (g.edges.map (fun e => (e.src, e.tgt))).foldl (driftStep d) g

/-- The per-edge update performed by `add_drift_dist_attr`, with node
positions looked up in `g` (node attributes are not changed by the pass, so
the graph used for the lookup is interchangeable along the fold). -/
def driftApply (g : Graph) (d : ℚ × ℚ) (e : CGEdge) : CGEdge :=
  match findNode? g e.src, findNode? g e.tgt with
  | some ns, some nt =>
      { e with attrs := { e.attrs with drift_dist_sq := some (driftVal ns nt d) } }
  | _, _ => e

/-- Concrete fixture for the drift tagger (claim instances): source node 1 at
(0,0) in frame 0; targets 2 at (−10,0) and 3 at (0,0) in frame 1. -/
def driftExampleGraph : Graph :=
  { nodes := [⟨1, { t := 0, x := 0, y := 0 }⟩,
              ⟨2, { t := 1, x := -10, y := 0 }⟩,
              ⟨3, { t := 1, x := 0, y := 0 }⟩],
    edges := [⟨1, 2, {}⟩, ⟨1, 3, {}⟩] }

/-! ## Detection-pipeline dataset loading (solution3_detection.py:94-99)

```python
x = np.stack([imread(str(p)) for p in sorted((base_path/ "images").glob("*.tif"))])
y = np.stack([imread(str(p)) for p in sorted((base_path/ "gt_tracking").glob("*.tif"))])
assert len(x) == len(x)
```
The module-level length check literally compares `len(x)` with `len(x)`
(not with `len(y)`). -/

/-- A raw image frame (intensity values). -/
def RawFrame : Type := ℕ → ℕ → ℚ

/-- A label frame (instance labels). -/
def LabelFrame : Type := ℕ → ℕ → ℕ

/-- The module-level assertion of the detection notebook: `True` exactly when
`assert len(x) == len(x)` passes, i.e. when loading proceeds past the check.
Faithful to the source: the label series `y` is not consulted. -/
def datasetLengthCheckPasses (x : List RawFrame) (y : List LabelFrame) : Bool :=
  x.length == x.length

/-- A constant raw frame used as a concrete test fixture. -/
def rawFrame0 : RawFrame := fun _ _ => 0

/-- A constant label frame used as a concrete test fixture. -/
def labelFrame0 : LabelFrame := fun _ _ => 0

/-! ## 4.1 Ground-Truth Loader (`read_gt_tracks`, solution.py:163-178)

```python
def read_gt_tracks():
    gt_tracks = nx.DiGraph()
    with open("data/breast_cancer_fluo_gt_tracks.csv") as f:
        reader = DictReader(f)
        for row in reader:
            _id = int(row["id"])
            attrs = {"x": float(row["x"]), "y": float(row["y"]), "t": int(row["time"])}
            parent_id = int(row["parent_id"])
            gt_tracks.add_node(_id, **attrs)
            if parent_id != -1:
                gt_tracks.add_edge(parent_id, _id)
    return gt_tracks
```
The file/csv layer is I/O; rows enter the embedding already coerced to the
numeric types `int`/`float` produce. networkx semantics embedded below:
`add_node` on an existing id overwrites its attributes, `add_edge` silently
creates missing endpoints as attribute-less nodes. -/

/-- Attributes of a ground-truth graph node (`t` from the csv `time` column). -/
structure GTAttrs where
  t : ℤ
  x : ℚ
  y : ℚ
deriving DecidableEq, Repr

/-- A ground-truth graph node; `attrs = none` models a node networkx created
implicitly through `add_edge` before (or without) its own csv row. -/
structure GTNode where
  id : ℤ
  attrs : Option GTAttrs
deriving DecidableEq, Repr

/-- The ground-truth lineage graph (networkx `DiGraph`). -/
structure GTGraph where
  nodes : List GTNode
  edges : List (ℤ × ℤ)
deriving DecidableEq, Repr

/-- One parsed csv row of the ground-truth track file. -/
structure GTRow where
  id : ℤ
  time : ℤ
  x : ℚ
  y : ℚ
  parent_id : ℤ
deriving DecidableEq, Repr

/-- Lookup a ground-truth node by id. -/
def findGTNode? (g : GTGraph) (i : ℤ) : Option GTNode :=
  g.nodes.find? (fun n => n.id == i)

/-- `i in gt_tracks` membership test. -/
def hasGTNode (g : GTGraph) (i : ℤ) : Prop :=
  (g.nodes.any (fun n => n.id == i)) = true

instance (g : GTGraph) (i : ℤ) : Decidable (hasGTNode g i) := by
  unfold hasGTNode; infer_instance

/-- networkx `add_node(i, **attrs)`: creates the node, or overwrites the
attributes of the already-present node with the same id. -/
def addGTNode (g : GTGraph) (i : ℤ) (a : GTAttrs) : GTGraph :=
  if hasGTNode g i then
    { g with nodes := g.nodes.map (fun n => if n.id = i then { n with attrs := some a } else n) }
  else
    { g with nodes := g.nodes ++ [⟨i, some a⟩] }

/-- Half of networkx `add_edge`: make sure an endpoint exists, creating it as
an attribute-less node when missing. -/
def gtEnsureNode (g : GTGraph) (w : ℤ) : GTGraph :=
  if hasGTNode g w then g else { g with nodes := g.nodes ++ [⟨w, none⟩] }

/-- networkx `add_edge(u, v)`: silently adds missing endpoints as
attribute-less nodes, then adds the edge unless already present. -/
def addGTEdge (g : GTGraph) (u v : ℤ) : GTGraph :=
  if (u, v) ∈ (gtEnsureNode (gtEnsureNode g u) v).edges then
    gtEnsureNode (gtEnsureNode g u) v
  else
    { gtEnsureNode (gtEnsureNode g u) v with
        edges := (gtEnsureNode (gtEnsureNode g u) v).edges ++ [(u, v)] }

/-- One iteration of the `read_gt_tracks` row loop. -/
def gtRowStep (g : GTGraph) (r : GTRow) : GTGraph :=
  if r.parent_id ≠ -1 then addGTEdge (addGTNode g r.id ⟨r.time, r.x, r.y⟩) r.parent_id r.id
  else addGTNode g r.id ⟨r.time, r.x, r.y⟩

/-- `read_gt_tracks` (solution.py:163-178) over the parsed row list. -/
def read_gt_tracks (rows : List GTRow) : GTGraph :=
  rows.foldl gtRowStep ⟨[], []⟩

/-- Two rows sharing `id = 1`: the concrete duplicate-key input. -/
def dupRows : List GTRow :=
  [⟨1, 0, 1, 2, -1⟩, ⟨1, 1, 3, 4, -1⟩]

/-! ## 4.4c Ground-Truth Annotator (`add_gt_annotations`, solution.py:913-933)

```python
def get_cand_id(gt_node, gt_track, cand_segmentation):
    data = gt_track.nodes[gt_node]
    return cand_segmentation[data["t"], int(data["x"])][int(data["y"])]

def add_gt_annotations(gt_tracks, cand_graph, segmentation):
    for gt_node in gt_tracks.nodes():
        cand_id = get_cand_id(gt_node, gt_tracks, segmentation)
        if cand_id != 0:
            if cand_id in cand_graph:
                cand_graph.nodes[cand_id]["gt"] = True
                gt_succs = gt_tracks.successors(gt_node)
                gt_succ_matches = [get_cand_id(gt_succ, gt_tracks, segmentation) for gt_succ in gt_succs]
                cand_succs = cand_graph.successors(cand_id)
                for succ in cand_succs:
                    if succ in gt_succ_matches:
                        cand_graph.edges[(cand_id, succ)]["gt"] = True
                    else:
                        cand_graph.edges[(cand_id, succ)]["gt"] = False
    for node in cand_graph.nodes():
       if "gt" not in cand_graph.nodes[node]:
           cand_graph.nodes[node]["gt"] = False
```
Python `int()` truncates toward zero — it does not round. -/

/-- A dense segmentation volume of shape `(T, R, C)` with integer labels
(0 = background). -/
structure Seg where
  T : ℕ
  R : ℕ
  C : ℕ
  val : ℕ → ℕ → ℕ → ℕ

/-- Python `int()` on a float: truncation toward zero. -/
def pyInt (q : ℚ) : ℤ :=
  if 0 ≤ q then ⌊q⌋ else ⌈q⌉

/-- `get_cand_id` (solution.py:913-915): sample the segmentation at frame
`t`, row `int(x)`, column `int(y)` (coordinates are nonnegative on this
dataset, so `Int.toNat` is faithful). -/
def get_cand_id (seg : Seg) (a : GTAttrs) : ℕ :=
  seg.val a.t.toNat (pyInt a.x).toNat (pyInt a.y).toNat

/-- The claim's reading of the lookup, written from the spec's words for
comparison with the source's `get_cand_id`: sample at the ROUNDED integer
coordinates of the ground-truth position. -/
def get_cand_id_rounded (seg : Seg) (a : GTAttrs) : ℕ :=
  seg.val a.t.toNat (round a.x).toNat (round a.y).toNat

/-- `gt_tracks.successors(i)`. -/
def gtSuccessors (gt : GTGraph) (i : ℤ) : List ℤ :=
  (gt.edges.filter (fun e => e.1 == i)).map (fun e => e.2)

/-- `cand_graph.successors(i)`. -/
def candSuccessors (g : Graph) (i : ℕ) : List ℕ :=
  (g.edges.filter (fun e => e.src == i)).map (fun e => e.tgt)

/-- `gt_succ_matches`: candidate ids sampled for the ground-truth successors
(lookup failures, impossible on a well-formed ground-truth graph, default
to the background id 0). -/
def gtSuccMatches (gt : GTGraph) (seg : Seg) (i : ℤ) : List ℕ :=
  (gtSuccessors gt i).map (fun s =>
    match findGTNode? gt s with
    | some n =>
      match n.attrs with
      | some a => get_cand_id seg a
      | none => 0
    | none => 0)

/-- `cand_graph.nodes[cand_id]["gt"] = True`. -/
def annotMarkNode (acc : Graph) (c : ℕ) : Graph :=
  updateNodeAttrs acc c (fun at1 => { at1 with gt := some true })

/-- The inner loop over `cand_graph.successors(cand_id)`: label each outgoing
edge `gt = (succ in gt_succ_matches)`. -/
def annotMarkEdges (gt : GTGraph) (seg : Seg) (gid : ℤ) (c : ℕ) (acc1 : Graph) : Graph :=
  (candSuccessors acc1 c).foldl
    (fun acc2 s =>
      updateEdgeAttrs acc2 c s
        (fun ea => { ea with gt := some (decide (s ∈ gtSuccMatches gt seg gid)) }))
    acc1

/-- One iteration of the outer `add_gt_annotations` loop for ground-truth
node `gn`. -/
def annotStep (gt : GTGraph) (seg : Seg) (acc : Graph) (gn : GTNode) : Graph :=
  match gn.attrs with
  | none => acc
  | some a =>
    if get_cand_id seg a ≠ 0 ∧ hasNode acc (get_cand_id seg a) then
      annotMarkEdges gt seg gn.id (get_cand_id seg a) (annotMarkNode acc (get_cand_id seg a))
    else acc

/-- `add_gt_annotations` (solution.py:917-933): annotate matched candidate
nodes/edges, then default every untouched node to `gt = False`. -/
def add_gt_annotations (gt : GTGraph) (g : Graph) (seg : Seg) : Graph :=
  let g1 := gt.nodes.foldl (annotStep gt seg) g
  { g1 with nodes := g1.nodes.map (fun n =>
      if n.attrs.gt = none then { n with attrs := { n.attrs with gt := some false } } else n) }

/-- Segmentation fixture for the annotator: frame 0 holds label 7 at pixel
(0,0) and label 9 at pixel (1,0). -/
def annotSeg : Seg :=
  { T := 1, R := 2, C := 1,
    val := fun t r c =>
      if t = 0 ∧ r = 0 ∧ c = 0 then 7 else if t = 0 ∧ r = 1 ∧ c = 0 then 9 else 0 }

/-- A ground-truth position at (t, x, y) = (0, 0.6, 0): truncation samples
row 0 (label 7), rounding samples row 1 (label 9). -/
def annotGTAttrs : GTAttrs := ⟨0, 3 / 5, 0⟩

/-- Ground-truth graph holding the single node above. -/
def annotGT : GTGraph := ⟨[⟨100, some annotGTAttrs⟩], []⟩

/-- Candidate graph holding detections 7 and 9 in frame 0. -/
def annotCand : Graph :=
  ⟨[⟨7, { t := 0, x := 0, y := 0 }⟩, ⟨9, { t := 0, x := 1, y := 0 }⟩], []⟩

/-- Witness fixtures for the annotator theorem: integer-coordinate
ground-truth node matching detection 5; detection 6 unmatched. -/
def annotWSeg : Seg :=
  { T := 1, R := 3, C := 3, val := fun t r c => if t = 0 ∧ r = 2 ∧ c = 1 then 5 else 0 }

/-- Ground-truth graph for the witness: one node at (0, 2.0, 1.0). -/
def annotWGT : GTGraph := ⟨[⟨200, some ⟨0, 2, 1⟩⟩], []⟩

/-- Candidate graph for the witness: detections 5 and 6 in frame 0. -/
def annotWCand : Graph :=
  ⟨[⟨5, { t := 0, x := 2, y := 1 }⟩, ⟨6, { t := 0, x := 0, y := 0 }⟩], []⟩

/-! ## 4.3 Candidate Edge Builder (`add_cand_edges`, solution.py:344-381)

```python
def add_cand_edges(cand_graph, max_edge_distance):
    node_frame_dict = _compute_node_frame_dict(cand_graph)
    frames = sorted(node_frame_dict.keys())
    prev_node_ids = node_frame_dict[frames[0]]
    prev_kdtree = create_kdtree(cand_graph, prev_node_ids)
    for frame in tqdm(frames):
        if frame + 1 not in node_frame_dict:
            continue
        next_node_ids = node_frame_dict[frame + 1]
        next_kdtree = create_kdtree(cand_graph, next_node_ids)
        matched_indices = prev_kdtree.query_ball_tree(next_kdtree, max_edge_distance)
        for prev_node_id, next_node_indices in zip(prev_node_ids, matched_indices):
            for next_node_index in next_node_indices:
                next_node_id = next_node_ids[next_node_index]
                cand_graph.add_edge(prev_node_id, next_node_id)
        prev_node_ids = next_node_ids
        prev_kdtree = next_kdtree
```
Note the `continue` on a missing successor frame skips the update of
`prev_node_ids`/`prev_kdtree` at the bottom of the loop. The k-d tree ball
query is embedded as its specification: all points within Euclidean distance
`max_edge_distance` (squared distance ≤ D²). -/

/-- `node_frame_dict[t]`: ids of the nodes in frame `t`, in node order. -/
def nodesInFrame (g : Graph) (t : ℕ) : List ℕ :=
  (g.nodes.filter (fun n => n.attrs.t == t)).map (fun n => n.id)

/-- `sorted(node_frame_dict.keys())`: the frames containing at least one
node, in ascending order. -/
def frameList (g : Graph) : List ℕ :=
  (List.range ((g.nodes.map (fun n => n.attrs.t)).foldr max 0 + 1)).filter
    (fun t => g.nodes.any (fun n => n.attrs.t == t))

/-- Position of a node id, as entered into the k-d trees. -/
def posOf (g : Graph) (i : ℕ) : ℚ × ℚ :=
  match findNode? g i with
  | some n => (n.attrs.x, n.attrs.y)
  | none => (0, 0)

/-- Squared Euclidean distance between two positions. -/
def distSq (p q : ℚ × ℚ) : ℚ :=
  (p.1 - q.1) ^ 2 + (p.2 - q.2) ^ 2

/-- networkx `add_edge` on the candidate graph (both endpoints exist here;
adding an existing edge is a no-op). -/
def addCandEdge (g : Graph) (u v : ℕ) : Graph :=
  if hasEdge g u v then g else { g with edges := g.edges ++ [⟨u, v, {}⟩] }

/-- The ball query plus the two inner loops of one frame step: link every id
of `prevIds` to every id of `nextIds` within distance `D` (positions are read
from the input graph `g0`; node attributes never change during the pass). -/
def linkFrames (g0 : Graph) (prevIds nextIds : List ℕ) (D : ℚ) (acc : Graph) : Graph :=
  prevIds.foldl (fun a pid =>
    (nextIds.filter (fun nid => distSq (posOf g0 pid) (posOf g0 nid) ≤ D ^ 2)).foldl
      (fun a2 nid => addCandEdge a2 pid nid) a) acc

/-- One iteration of the `add_cand_edges` frame loop; the state carries
(`prev_node_ids`, graph). When frame `frame + 1` holds no nodes the source
`continue`s — leaving `prev_node_ids` stale. -/
def candEdgeStep (g0 : Graph) (D : ℚ) (st : List ℕ × Graph) (frame : ℕ) : List ℕ × Graph :=
  if nodesInFrame g0 (frame + 1) = [] then st
  else
    (nodesInFrame g0 (frame + 1),
     linkFrames g0 st.1 (nodesInFrame g0 (frame + 1)) D st.2)

/-- `add_cand_edges` (solution.py:344-381). On a graph with no nodes the
source crashes on `frames[0]`; the embedding returns the graph unchanged. -/
def add_cand_edges (g : Graph) (D : ℚ) : Graph :=
  match frameList g with
  | [] => g
  | f0 :: _ => ((frameList g).foldl (candEdgeStep g D) (nodesInFrame g f0, g)).2

/-- The gap fixture: one node in each of frames 0, 2 and 3 (frame 1 empty),
all at the same position, well within `max_edge_distance = 50`. -/
def gapGraph : Graph :=
  { nodes := [⟨1, { t := 0, x := 0, y := 0 }⟩,
              ⟨2, { t := 2, x := 0, y := 0 }⟩,
              ⟨3, { t := 3, x := 0, y := 0 }⟩],
    edges := [] }

/-! ## 4.7 Segmentation Relabeler (`relabel_segmentation`, solution.py:532-562)

```python
def relabel_segmentation(solution_nx_graph, segmentation):
    assign_tracklet_ids(solution_nx_graph)
    tracked_masks = np.zeros_like(segmentation)
    for node, data in solution_nx_graph.nodes(data=True):
        time_frame = solution_nx_graph.nodes[node]["t"]
        previous_seg_id = node
        track_id = solution_nx_graph.nodes[node]["tracklet_id"]
        previous_seg_mask = (segmentation[time_frame] == previous_seg_id)
        tracked_masks[time_frame][previous_seg_mask] = track_id
    return tracked_masks
```
`assign_tracklet_ids` is imported from motile_toolbox and is not part of this
repository; it is modelled from the spec below. The Python function mutates
`solution_nx_graph` in place and allocates a fresh zero array; the embedding
renders the mutation as the first component of the returned pair. -/

/-- In-degree of id `i`. -/
def gInDeg (g : Graph) (i : ℕ) : ℕ :=
  (g.edges.filter (fun e => e.tgt == i)).length

/-- Out-degree of id `i`. -/
def gOutDeg (g : Graph) (i : ℕ) : ℕ :=
  (g.edges.filter (fun e => e.src == i)).length

/-- The source of the first incoming edge of `i` — the unique parent when
in-degree ≤ 1. -/
def parentOf (g : Graph) (i : ℕ) : Option ℕ :=
  ((g.edges.filter (fun e => e.tgt == i)).head?).map (fun e => e.src)

/-- Walk to the start of the division-free chain containing `i`: stop at a
node with no parent (track start) or whose parent has two children (the
parent's division starts a new tracklet). Fuel bounds the walk. -/
def chainStartAux (g : Graph) : ℕ → ℕ → ℕ
  | 0, i => i
  | fuel + 1, i =>
    match parentOf g i with
    | none => i
    | some p => if 2 ≤ gOutDeg g p then i else chainStartAux g fuel p

/-- The tracklet identifier of node `i`: the id of its chain-start node. -/
def tracklet_id_of (g : Graph) (i : ℕ) : ℕ :=
  chainStartAux g g.nodes.length i

/-- Modelled from the spec: `assign_tracklet_ids` (motile_toolbox, external
to this repository). §4.7: "assign every node in the solution graph a
`tracklet_id` — a shared identifier for every maximal chain of nodes
connected by selected edges that does not cross a division (a node with two
selected children starts two new tracklet ids for its children, while the
node itself retains its own)". The identifier chosen for a chain is the id
of its starting node. -/
def assign_tracklet_ids (g : Graph) : Graph :=
  { g with nodes := g.nodes.map (fun n =>
      { n with attrs := { n.attrs with tracklet_id := some (tracklet_id_of g n.id) } }) }

/-- `np.zeros_like(segmentation)`. -/
def zerosLike (s : Seg) : Seg :=
  { s with val := fun _ _ _ => 0 }

/-- One node's write: `tracked_masks[t][segmentation[t] == nid] = tid`
(the mask is computed from the ORIGINAL segmentation). -/
def writeNodeMask (orig : Seg) (nid t tid : ℕ) (acc : Seg) : Seg :=
  { acc with val := fun t2 r c => if t2 = t ∧ orig.val t r c = nid then tid else acc.val t2 r c }

/-- `relabel_segmentation` (solution.py:532-562): first component is the
solution graph after the in-place `assign_tracklet_ids` mutation, second the
freshly allocated relabeled volume. -/
def relabel_segmentation (g : Graph) (seg : Seg) : Graph × Seg :=
  (assign_tracklet_ids g,
   (assign_tracklet_ids g).nodes.foldl
     (fun acc n => writeNodeMask seg n.id n.attrs.t ((n.attrs.tracklet_id).getD 0) acc)
     (zerosLike seg))

/-- Relabeler fixture: a two-node track 4 → 8 (no division). -/
def relabelGraph : Graph :=
  { nodes := [⟨4, { t := 0, x := 0, y := 0 }⟩, ⟨8, { t := 1, x := 0, y := 0 }⟩],
    edges := [⟨4, 8, {}⟩] }

/-- Relabeler segmentation fixture: label 4 in frame 0, labels 8 and 13 in
frame 1 — 13 belongs to no solution node. -/
def relabelSeg : Seg :=
  { T := 2, R := 1, C := 2,
    val := fun t r c =>
      if t = 0 ∧ r = 0 ∧ c = 0 then 4
      else if t = 1 ∧ r = 0 ∧ c = 1 then 8
      else if t = 1 ∧ r = 0 ∧ c = 0 then 13
      else 0 }

/-! ## 4.5 ILP Tracking Solver
(`solve_basic_optimization` solution.py:455-477,
`solve_appear_optimization` solution.py:741-764,
`solve_drift_optimization` solution.py:856-880)

All three functions share this shape, differing only in cost terms:

```python
def solve_basic_optimization(cand_graph):
    cand_trackgraph = motile.TrackGraph(cand_graph, frame_attribute="t")
    solver = motile.Solver(cand_trackgraph)
    solver.add_cost(motile.costs.EdgeDistance(weight=1, constant=-20,
                                              position_attribute=("x", "y")))
    solver.add_cost(motile.costs.Appear(constant=1.0))
    solver.add_constraint(motile.constraints.MaxParents(1))
    solver.add_constraint(motile.constraints.MaxChildren(2))
    solver.solve()
    solution_graph = graph_to_nx(solver.get_selected_subgraph())
    return solution_graph
```

motile is a vendored third-party ILP library. Modelled from the spec (§4.5):
every candidate node and edge carries a binary decision variable; an edge may
be selected only if both endpoints are (incidence consistency); a node has at
most 1 selected incoming edge (`MaxParents 1`) and at most 2 selected
outgoing edges (`MaxChildren 2`); the objective is linear — a per-selected-
edge cost, an Appear charge for every selected node with no selected incoming
edge (skipped when its ignore attribute is set and the configuration uses
one), and a Split charge for every selected node with two selected outgoing
edges; the solver returns the induced subgraph of a cost-minimizing feasible
assignment (ties broken arbitrarily, so the output is modelled as a set).
The numeric edge cost (weight · Euclidean distance + constant, or the
drift_dist variant) is irrational in general; the claims settled against
this model are cost-independent (C5) or quantify over all non-negative cost
values (C6), so the edge-cost function is a parameter. -/

/-- A binary assignment: the node ids and edge keys whose decision variables
are 1. -/
structure Selection where
  selNodes : List ℕ
  selEdges : List (ℕ × ℕ)
deriving DecidableEq, Repr

/-- Number of selected incoming edges of node `i`. -/
def selInDeg (sel : Selection) (i : ℕ) : ℕ :=
  (sel.selEdges.filter (fun e => e.2 == i)).length

/-- Number of selected outgoing edges of node `i`. -/
def selOutDeg (sel : Selection) (i : ℕ) : ℕ :=
  (sel.selEdges.filter (fun e => e.1 == i)).length

/-- Modelled from the spec: feasibility of an assignment under motile's
incidence consistency, `MaxParents 1` and `MaxChildren 2` constraints. -/
def feasible (g : Graph) (sel : Selection) : Prop :=
  sel.selNodes.Nodup ∧ sel.selEdges.Nodup ∧
  (∀ i ∈ sel.selNodes, hasNode g i) ∧
  (∀ e ∈ sel.selEdges, hasEdge g e.1 e.2) ∧
  (∀ e ∈ sel.selEdges, e.1 ∈ sel.selNodes ∧ e.2 ∈ sel.selNodes) ∧
  (∀ i ∈ sel.selNodes, selInDeg sel i ≤ 1) ∧
  (∀ i ∈ sel.selNodes, selOutDeg sel i ≤ 2)

instance (g : Graph) (sel : Selection) : Decidable (feasible g sel) := by
  unfold feasible; infer_instance

/-- The `ignore_appear` flag of node `i` (False when absent or not a node). -/
def ignoreAppearOf (g : Graph) (i : ℕ) : Bool :=
  ((findNode? g i).bind (fun n => n.attrs.ignore_appear)).getD false

/-- A cost structure: per-edge selection cost, Appear constant (reading the
`ignore_appear` attribute only when `useIgnoreAttr`), Split constant. -/
structure CostConfig where
  edgeCost : ℕ → ℕ → ℚ
  appearConst : ℚ
  useIgnoreAttr : Bool
  splitConst : ℚ

/-- Appear indicator: a selected node with no selected incoming edge whose
ignore flag is not consulted or not set pays the Appear cost. -/
def appears (cfg : CostConfig) (g : Graph) (sel : Selection) (i : ℕ) : Bool :=
  selInDeg sel i == 0 && !(cfg.useIgnoreAttr && ignoreAppearOf g i)

/-- Split indicator: a node with two selected outgoing edges pays the Split
cost. -/
def splits (sel : Selection) (i : ℕ) : Bool :=
  selOutDeg sel i == 2

/-- The objective value of an assignment. -/
def totalCost (cfg : CostConfig) (g : Graph) (sel : Selection) : ℚ :=
  (sel.selEdges.map (fun e => cfg.edgeCost e.1 e.2)).sum
  + cfg.appearConst * ((sel.selNodes.filter (fun i => appears cfg g sel i)).length : ℚ)
  + cfg.splitConst * ((sel.selNodes.filter (fun i => splits sel i)).length : ℚ)

/-- A feasible assignment of minimal objective value. -/
def optimalSel (cfg : CostConfig) (g : Graph) (sel : Selection) : Prop :=
  feasible g sel ∧ ∀ sel2, feasible g sel2 → totalCost cfg g sel ≤ totalCost cfg g sel2

/-- `solver.get_selected_subgraph()` + `graph_to_nx`: the subgraph induced by
the selected nodes and edges. -/
def selectedSubgraph (g : Graph) (sel : Selection) : Graph :=
  { nodes := g.nodes.filter (fun n => n.id ∈ sel.selNodes),
    edges := g.edges.filter (fun e => (e.src, e.tgt) ∈ sel.selEdges) }

/-- The solution graphs a motile solver with cost structure `cfg` may return
on candidate graph `g`. -/
def solverOutputs (cfg : CostConfig) (g : Graph) : Set Graph :=
  { sg | ∃ sel, optimalSel cfg g sel ∧ sg = selectedSubgraph g sel }

/-- `solve_basic_optimization` (solution.py:455-477): EdgeDistance(weight 1,
constant −20) — the numeric cost abstracted as `ec` — plus Appear(1.0)
without ignore attribute; MaxParents 1, MaxChildren 2. -/
def solve_basic_optimization (ec : ℕ → ℕ → ℚ) (g : Graph) : Set Graph :=
  solverOutputs ⟨ec, 1, false, 0⟩ g

/-- `solve_appear_optimization` (solution.py:741-764): EdgeDistance plus
Appear(10, ignore_attribute="ignore_appear"); MaxParents 1, MaxChildren 2. -/
def solve_appear_optimization (ec : ℕ → ℕ → ℚ) (g : Graph) : Set Graph :=
  solverOutputs ⟨ec, 10, true, 0⟩ g

/-- `solve_drift_optimization` (solution.py:856-880): EdgeSelection on
drift_dist plus Appear(100, ignore_attribute="ignore_appear") plus
Split(20); MaxParents 1, MaxChildren 2. -/
def solve_drift_optimization (ec : ℕ → ℕ → ℚ) (g : Graph) : Set Graph :=
  solverOutputs ⟨ec, 100, true, 20⟩ g

/-- Directed edge relation of a graph, on node ids. -/
def edgeRel (g : Graph) (a b : ℕ) : Prop :=
  ∃ e ∈ g.edges, e.src = a ∧ e.tgt = b

/-- Directed reachability (selected-edge paths). -/
def Reaches (g : Graph) : ℕ → ℕ → Prop :=
  Relation.ReflTransGen (edgeRel g)

/-- Weak (undirected) connectivity. -/
def WConn (g : Graph) : ℕ → ℕ → Prop :=
  Relation.ReflTransGen (fun a b => edgeRel g a b ∨ edgeRel g b a)

/-- Frame index of a node id (0 when absent). -/
def timeOf (g : Graph) (i : ℕ) : ℕ :=
  ((findNode? g i).map (fun n => n.attrs.t)).getD 0

/-- Walk parent pointers upward; the frame index strictly decreases along a
parent step, so `timeOf g i` fuel suffices. -/
def rootAux (g : Graph) : ℕ → ℕ → ℕ
  | 0, i => i
  | fuel + 1, i =>
    match parentOf g i with
    | none => i
    | some p => rootAux g fuel p

/-- The root of the lineage tree containing `i`: the end of its parent
chain. -/
def rootOf (g : Graph) (i : ℕ) : ℕ :=
  rootAux g (timeOf g i) i

/-- All-zero cost structure: every cost value is 0, hence non-negative. -/
def zeroConfig : CostConfig :=
  ⟨fun _ _ => 0, 0, false, 0⟩

/-- Two-node candidate graph with one adjacent-frame edge, used to exhibit a
cost tie. -/
def tieGraph : Graph :=
  { nodes := [⟨21, { t := 0, x := 0, y := 0 }⟩, ⟨22, { t := 1, x := 0, y := 0 }⟩],
    edges := [⟨21, 22, {}⟩] }

/-- The full selection on `tieGraph`: both nodes and the edge. -/
def tieSel : Selection :=
  ⟨[21, 22], [(21, 22)]⟩

/-- Candidate graph for the C6 witness: a single node. -/
def c6WGraph : Graph :=
  { nodes := [⟨31, { t := 0, x := 0, y := 0 }⟩], edges := [] }

/-- Strictly positive cost structure for the C6 witness. -/
def c6WConfig : CostConfig :=
  ⟨fun _ _ => 1, 1, false, 1⟩

/-- Candidate graph for the C5 witness: a division — root 41 in frame 0 with
children 42 and 43 in frame 1, and a separate track start 44. -/
def c5WGraph : Graph :=
  { nodes := [⟨41, { t := 0, x := 0, y := 0, ignore_appear := some true }⟩,
              ⟨42, { t := 1, x := 0, y := 0, ignore_appear := some true }⟩,
              ⟨43, { t := 1, x := 1, y := 1, ignore_appear := some true }⟩,
              ⟨44, { t := 0, x := 5, y := 5, ignore_appear := some true }⟩],
    edges := [⟨41, 42, {}⟩, ⟨41, 43, {}⟩] }

/-- The full selection on `c5WGraph`. -/
def c5WSel : Selection :=
  ⟨[41, 42, 43, 44], [(41, 42), (41, 43)]⟩

/-! # Theorems -/

/-- `updateNodeAttrs` leaves edges untouched. -/
theorem updateNodeAttrs_edges (g : Graph) (i : ℕ) (f : NodeAttrs → NodeAttrs) :
    (updateNodeAttrs g i f).edges = g.edges := rfl

/-- `find?` by id commutes with a map that preserves ids. -/
theorem find?_map_id_preserving (F : CGNode → CGNode) (hF : ∀ n, (F n).id = n.id)
    (L : List CGNode) (j : ℕ) :
    (L.map F).find? (fun m => m.id == j) = (L.find? (fun m => m.id == j)).map F := by
  induction L with
  | nil => rfl
  | cons n rest ih =>
    by_cases h : n.id = j
    · simp [List.find?_cons, hF n, h]
    · simp [List.find?_cons, hF n, h, ih]

/-- Looking up a node after a keyed attribute update: the map preserves
positions and ids, so `find?` lands on the same record, with `f` applied
exactly when the looked-up id is the updated id. -/
theorem findNode?_updateNodeAttrs (g : Graph) (i j : ℕ) (f : NodeAttrs → NodeAttrs) :
    findNode? (updateNodeAttrs g i f) j =
      (findNode? g j).map (fun n => if n.id = i then { n with attrs := f n.attrs } else n) := by
  unfold findNode? updateNodeAttrs
  exact find?_map_id_preserving _ (fun n => by by_cases h : n.id = i <;> simp [h]) g.nodes j

/-- `appearStep` leaves edges untouched. -/
theorem appearStep_edges (acc : Graph) (i : ℕ) : (appearStep acc i).edges = acc.edges := by
  unfold appearStep
  cases h : findNode? acc i with
  | none => rfl
  | some n =>
    by_cases hc : n.attrs.t = 0 ∨ (710 : ℚ) ≤ n.attrs.x <;> simp [hc, updateNodeAttrs_edges]

/-- `appearApply` does not change the id, `t` or `x` of a node. -/
theorem appearApply_id_t_x (n : CGNode) :
    (appearApply n).id = n.id ∧ (appearApply n).attrs.t = n.attrs.t ∧
      (appearApply n).attrs.x = n.attrs.x := by
  unfold appearApply
  by_cases hc : n.attrs.t = 0 ∨ (710 : ℚ) ≤ n.attrs.x <;> simp [hc]

/-- `appearApply` is idempotent (setting the flag twice is the same as once;
the condition reads only `t` and `x`, which the update leaves alone). -/
theorem appearApply_idem (n : CGNode) : appearApply (appearApply n) = appearApply n := by
  unfold appearApply
  by_cases hc : n.attrs.t = 0 ∨ (710 : ℚ) ≤ n.attrs.x <;> simp [hc]

/-- Effect of one `appearStep` on lookups. -/
theorem findNode?_appearStep (acc : Graph) (i j : ℕ) :
    findNode? (appearStep acc i) j =
      if j = i then (findNode? acc j).map appearApply else findNode? acc j := by
  unfold appearStep
  cases hfi : findNode? acc i with
  | none =>
    by_cases hij : j = i
    · subst hij; simp [hfi]
    · simp [hij]
  | some n =>
    have hnid : n.id = i := by
      have := List.find?_some hfi
      simpa using this
    by_cases hc : n.attrs.t = 0 ∨ (710 : ℚ) ≤ n.attrs.x
    · simp only [hc, if_true]
      rw [findNode?_updateNodeAttrs]
      by_cases hij : j = i
      · subst hij
        rw [hfi]
        simp [Option.map, appearApply, hnid, hc]
      · rw [if_neg hij]
        cases hfj : findNode? acc j with
        | none => rfl
        | some m =>
          have hmid : m.id = j := by
            have := List.find?_some hfj
            simpa using this
          simp [Option.map, hmid, hij]
    · simp only [hc, if_false]
      by_cases hij : j = i
      · subst hij
        rw [if_pos rfl, hfi]
        simp [Option.map, appearApply, hnid, hc]
      · simp [hij]

/-- Folding `appearStep` over a list of ids: a node is updated (idempotently)
exactly when its id occurs in the list. -/
theorem findNode?_appearFold (L : List ℕ) (acc : Graph) (j : ℕ) :
    findNode? (L.foldl appearStep acc) j =
      if j ∈ L then (findNode? acc j).map appearApply else findNode? acc j := by
  induction L generalizing acc with
  | nil => simp
  | cons i rest ih =>
    simp only [List.foldl_cons]
    rw [ih]
    by_cases hjr : j ∈ rest
    · rw [if_pos hjr, if_pos (List.mem_cons_of_mem i hjr)]
      rw [findNode?_appearStep]
      by_cases hij : j = i
      · rw [if_pos hij]
        cases hfj : findNode? acc j <;> simp [appearApply_idem]
      · rw [if_neg hij]
    · rw [if_neg hjr, findNode?_appearStep]
      by_cases hij : j = i
      · rw [if_pos hij, if_pos (by simp [hij])]
      · rw [if_neg hij, if_neg (by simp [hij, hjr])]

/-- Folding `appearStep` leaves edges untouched. -/
theorem appearFold_edges (L : List ℕ) (acc : Graph) :
    (L.foldl appearStep acc).edges = acc.edges := by
  induction L generalizing acc with
  | nil => rfl
  | cons i rest ih => simp only [List.foldl_cons]; rw [ih, appearStep_edges]

/-- With unique ids, `find?` by the id of a member finds exactly that record. -/
theorem find?_eq_of_mem_nodup (L : List CGNode) (hnd : (L.map (fun n => n.id)).Nodup)
    (n : CGNode) (hn : n ∈ L) : L.find? (fun m => m.id == n.id) = some n := by
  induction L with
  | nil => cases hn
  | cons m rest ih =>
    simp only [List.map_cons, List.nodup_cons] at hnd
    rcases List.mem_cons.mp hn with h | h
    · subst h; simp
    · have hne : (m.id == n.id) = false := by
        simp only [beq_eq_false_iff_ne, ne_eq]
        intro hm
        exact hnd.1 (hm ▸ List.mem_map_of_mem (fun n => n.id) h)
      simp only [List.find?_cons, hne]
      exact ih hnd.2 h

/-- With unique node ids, looking up a member node finds exactly that record. -/
theorem findNode?_of_mem (g : Graph) (hnd : (g.nodes.map (fun n => n.id)).Nodup)
    (n : CGNode) (hn : n ∈ g.nodes) : findNode? g n.id = some n :=
  find?_eq_of_mem_nodup g.nodes hnd n hn

/-- C7: after `add_appear_ignore_attr` runs (boundary threshold 710), a node
with `t = 0` or `x ≥ 710` carries `ignore_appear = True`; every other node's
`ignore_appear` stays absent (given it was absent before the pass, as it is
on a freshly built candidate graph); no other node attribute and no edge is
changed. -/
theorem add_appear_ignore_attr_spec (g : Graph)
    (hnd : (g.nodes.map (fun n => n.id)).Nodup)
    (habsent : ∀ n ∈ g.nodes, n.attrs.ignore_appear = none)
    (n : CGNode) (hn : n ∈ g.nodes) :
    findNode? (add_appear_ignore_attr g) n.id =
      some { n with attrs := { n.attrs with
        ignore_appear := if n.attrs.t = 0 ∨ (710 : ℚ) ≤ n.attrs.x then some true else none } } ∧
    (add_appear_ignore_attr g).edges = g.edges := by
  constructor
  · unfold add_appear_ignore_attr
    rw [findNode?_appearFold]
    have hmem : n.id ∈ g.nodes.map (fun n => n.id) := List.mem_map_of_mem (fun n => n.id) hn
    rw [if_pos hmem, findNode?_of_mem g hnd n hn]
    have hab := habsent n hn
    obtain ⟨nid, nt, nx, ny, nia, ngt, ntid⟩ := n
    simp only at hab
    subst hab
    by_cases hc : nt = 0 ∨ (710 : ℚ) ≤ nx
    · simp [Option.map, appearApply, hc]
    · simp [Option.map, appearApply, hc]
  · exact appearFold_edges _ _

/-- Concrete candidate graph for exercising the appear tagger: node 1 is in
the first frame, node 2 is beyond the boundary, node 3 is neither. -/
def appearExampleGraph : Graph :=
  { nodes := [⟨1, { t := 0, x := 5, y := 5 }⟩,
              ⟨2, { t := 1, x := 720, y := 3 }⟩,
              ⟨3, { t := 1, x := 5, y := 5 }⟩],
    edges := [⟨1, 3, {}⟩] }

/-- Witness for C7 at a concrete graph: the first-frame node and the
beyond-boundary node are tagged, the remaining node's flag stays absent, and
edges are untouched. -/
theorem add_appear_ignore_attr_spec_witness :
    findNode? (add_appear_ignore_attr appearExampleGraph) 3 =
      some ⟨3, { t := 1, x := 5, y := 5 }⟩ ∧
    findNode? (add_appear_ignore_attr appearExampleGraph) 1 =
      some ⟨1, { t := 0, x := 5, y := 5, ignore_appear := some true }⟩ ∧
    findNode? (add_appear_ignore_attr appearExampleGraph) 2 =
      some ⟨2, { t := 1, x := 720, y := 3, ignore_appear := some true }⟩ ∧
    (add_appear_ignore_attr appearExampleGraph).edges = appearExampleGraph.edges := by
  have h3 := add_appear_ignore_attr_spec appearExampleGraph (by decide) (by decide)
    ⟨3, { t := 1, x := 5, y := 5 }⟩ (by decide)
  have h1 := add_appear_ignore_attr_spec appearExampleGraph (by decide) (by decide)
    ⟨1, { t := 0, x := 5, y := 5 }⟩ (by decide)
  have h2 := add_appear_ignore_attr_spec appearExampleGraph (by decide) (by decide)
    ⟨2, { t := 1, x := 720, y := 3 }⟩ (by decide)
  refine ⟨?_, ?_, ?_, h3.2⟩
  · have := h3.1
    simpa using this
  · have := h1.1
    simpa using this
  · have := h2.1
    simpa using this

/-- C2: the detection notebook's dataset-loading length check passes even on
an image series of 2 frames paired with a label series of 3 frames — the
assertion compares `len(x)` with itself, so a frame-count mismatch never
fails, contradicting the documented DataMismatch contract. -/
theorem datasetLengthCheck_passes_on_mismatch :
    [rawFrame0, rawFrame0].length ≠ [labelFrame0, labelFrame0, labelFrame0].length ∧
    datasetLengthCheckPasses [rawFrame0, rawFrame0]
      [labelFrame0, labelFrame0, labelFrame0] = true := by
  exact ⟨by decide, rfl⟩

/-- `updateEdgeAttrs` leaves nodes untouched. -/
theorem updateEdgeAttrs_nodes (g : Graph) (s t : ℕ) (f : EdgeAttrs → EdgeAttrs) :
    (updateEdgeAttrs g s t f).nodes = g.nodes := rfl

/-- `find?` by edge key commutes with a map that preserves keys. -/
theorem find?_map_key_preserving (F : CGEdge → CGEdge)
    (hF : ∀ e, (F e).src = e.src ∧ (F e).tgt = e.tgt) (L : List CGEdge) (s t : ℕ) :
    (L.map F).find? (fun e => e.src == s && e.tgt == t) =
      (L.find? (fun e => e.src == s && e.tgt == t)).map F := by
  induction L with
  | nil => rfl
  | cons e rest ih =>
    by_cases h : e.src = s ∧ e.tgt = t
    · simp [List.find?_cons, (hF e).1, (hF e).2, h.1, h.2]
    · rw [Decidable.not_and_iff_or_not] at h
      rcases h with h | h
      · simp [List.find?_cons, (hF e).1, (hF e).2, h, ih]
      · simp [List.find?_cons, (hF e).1, (hF e).2, h, ih]

/-- Looking up an edge after a keyed attribute update. -/
theorem findEdge?_updateEdgeAttrs (g : Graph) (s t u v : ℕ) (f : EdgeAttrs → EdgeAttrs) :
    findEdge? (updateEdgeAttrs g s t f) u v =
      (findEdge? g u v).map
        (fun e => if e.src = s ∧ e.tgt = t then { e with attrs := f e.attrs } else e) := by
  unfold findEdge? updateEdgeAttrs
  exact find?_map_key_preserving _
    (fun e => by by_cases h : e.src = s ∧ e.tgt = t <;> simp [h]) g.edges u v

/-- A successful edge lookup returns a record with the looked-up key. -/
theorem findEdge?_key (g : Graph) (u v : ℕ) (e : CGEdge) (h : findEdge? g u v = some e) :
    e.src = u ∧ e.tgt = v := by
  unfold findEdge? at h
  have := List.find?_some h
  simp only [Bool.and_eq_true, beq_iff_eq] at this
  exact this

/-- `driftStep` leaves nodes untouched. -/
theorem driftStep_nodes (d : ℚ × ℚ) (acc : Graph) (k : ℕ × ℕ) :
    (driftStep d acc k).nodes = acc.nodes := by
  unfold driftStep
  cases hs : findNode? acc k.1 with
  | none => rfl
  | some ns =>
    cases ht : findNode? acc k.2 with
    | none => rfl
    | some nt => exact updateEdgeAttrs_nodes ..

/-- `findNode?` only reads the node list. -/
theorem findNode?_congr (g g' : Graph) (h : g'.nodes = g.nodes) (i : ℕ) :
    findNode? g' i = findNode? g i := by
  unfold findNode?; rw [h]

/-- `driftApply` only reads the node list of its graph argument. -/
theorem driftApply_congr (g g' : Graph) (h : g'.nodes = g.nodes) (d : ℚ × ℚ) :
    driftApply g' d = driftApply g d := by
  funext e
  unfold driftApply
  rw [findNode?_congr g g' h, findNode?_congr g g' h]

/-- Effect of one `driftStep` on edge lookups. -/
theorem findEdge?_driftStep (d : ℚ × ℚ) (acc : Graph) (k : ℕ × ℕ) (u v : ℕ) :
    findEdge? (driftStep d acc k) u v =
      if (u, v) = k then (findEdge? acc u v).map (driftApply acc d)
      else findEdge? acc u v := by
  have happly : ∀ (e : CGEdge), e.src = u → e.tgt = v → (u, v) = k →
      driftApply acc d e =
        (match findNode? acc k.1, findNode? acc k.2 with
         | some ns, some nt =>
             { e with attrs := { e.attrs with drift_dist_sq := some (driftVal ns nt d) } }
         | _, _ => e) := by
    intro e hsrc htgt hk
    unfold driftApply
    rw [hsrc, htgt, ← hk]
  unfold driftStep
  by_cases huv : (u, v) = k
  · rw [if_pos huv]
    cases hs : findNode? acc k.1 with
    | none =>
      cases hf : findEdge? acc u v with
      | none => simp
      | some e =>
        obtain ⟨h1, h2⟩ := findEdge?_key acc u v e hf
        rw [Option.map_some', happly e h1 h2 huv, hs]
    | some ns =>
      cases ht : findNode? acc k.2 with
      | none =>
        cases hf : findEdge? acc u v with
        | none => simp
        | some e =>
          obtain ⟨h1, h2⟩ := findEdge?_key acc u v e hf
          rw [Option.map_some', happly e h1 h2 huv, hs, ht]
      | some nt =>
        rw [findEdge?_updateEdgeAttrs]
        cases hf : findEdge? acc u v with
        | none => rfl
        | some e =>
          obtain ⟨h1, h2⟩ := findEdge?_key acc u v e hf
          rw [Option.map_some', Option.map_some', happly e h1 h2 huv, hs, ht]
          have : e.src = k.1 ∧ e.tgt = k.2 := by
            constructor
            · rw [h1, ← huv]
            · rw [h2, ← huv]
          rw [if_pos this]
  · rw [if_neg huv]
    cases hs : findNode? acc k.1 with
    | none => rfl
    | some ns =>
      cases ht : findNode? acc k.2 with
      | none => rfl
      | some nt =>
        rw [findEdge?_updateEdgeAttrs]
        cases hf : findEdge? acc u v with
        | none => rfl
        | some e =>
          obtain ⟨h1, h2⟩ := findEdge?_key acc u v e hf
          rw [Option.map_some']
          have : ¬(e.src = k.1 ∧ e.tgt = k.2) := by
            intro hc
            exact huv (by rw [← h1, ← h2, hc.1, hc.2])
          rw [if_neg this]

/-- `driftApply` is idempotent (re-storing the attribute recomputes the same
value: the update touches no node and does not change the edge key). -/
theorem driftApply_idem (g : Graph) (d : ℚ × ℚ) (e : CGEdge) :
    driftApply g d (driftApply g d e) = driftApply g d e := by
  unfold driftApply
  cases hs : findNode? g e.src with
  | none => simp [hs]
  | some ns =>
    cases ht : findNode? g e.tgt with
    | none => simp [hs, ht]
    | some nt => simp [hs, ht]

/-- Folding `driftStep` over a list of edge keys: an edge is updated
(idempotently) exactly when its key occurs in the list. -/
theorem findEdge?_driftFold (d : ℚ × ℚ) (L : List (ℕ × ℕ)) (acc : Graph) (u v : ℕ) :
    findEdge? (L.foldl (driftStep d) acc) u v =
      if (u, v) ∈ L then (findEdge? acc u v).map (driftApply acc d)
      else findEdge? acc u v := by
  induction L generalizing acc with
  | nil => simp
  | cons k rest ih =>
    simp only [List.foldl_cons]
    rw [ih, driftApply_congr acc (driftStep d acc k) (driftStep_nodes d acc k) d]
    by_cases hr : (u, v) ∈ rest
    · rw [if_pos hr, if_pos (List.mem_cons_of_mem k hr), findEdge?_driftStep]
      by_cases hk : (u, v) = k
      · rw [if_pos hk, Option.map_map]
        cases hf : findEdge? acc u v with
        | none => rfl
        | some e => simp [Function.comp, driftApply_idem]
      · rw [if_neg hk]
    · rw [if_neg hr, findEdge?_driftStep]
      by_cases hk : (u, v) = k
      · rw [if_pos hk, if_pos (by simp [hk])]
      · rw [if_neg hk, if_neg (by simp [hk, hr])]

/-- A node-membership test succeeds exactly when the lookup returns a record. -/
theorem exists_findNode?_of_hasNode (g : Graph) (i : ℕ) (h : hasNode g i) :
    ∃ n, findNode? g i = some n := by
  unfold hasNode at h
  unfold findNode?
  rcases List.any_eq_true.mp h with ⟨n, hn, hni⟩
  cases hfind : g.nodes.find? (fun m => m.id == i) with
  | some m => exact ⟨m, rfl⟩
  | none => exact absurd hni (List.find?_eq_none.mp hfind n hn)

/-- With unique edge keys, `find?` by the key of a member edge finds exactly
that record. -/
theorem find?_edge_of_mem_nodup (L : List CGEdge)
    (hnd : (L.map (fun e => (e.src, e.tgt))).Nodup)
    (e : CGEdge) (he : e ∈ L) :
    L.find? (fun f => f.src == e.src && f.tgt == e.tgt) = some e := by
  induction L with
  | nil => cases he
  | cons a rest ih =>
    simp only [List.map_cons, List.nodup_cons] at hnd
    rcases List.mem_cons.mp he with h | h
    · subst h; simp
    · have hne : (a.src == e.src && a.tgt == e.tgt) = false := by
        by_cases hs : a.src = e.src
        · by_cases ht : a.tgt = e.tgt
          · exfalso
            apply hnd.1
            rw [hs, ht]
            exact List.mem_map_of_mem (fun e => (e.src, e.tgt)) h
          · simp [ht]
        · simp [hs]
      simp only [List.find?_cons, hne]
      exact ih hnd.2 h

/-- With unique edge keys, looking up a member edge finds exactly that record. -/
theorem findEdge?_of_mem (g : Graph) (hnd : (g.edges.map (fun e => (e.src, e.tgt))).Nodup)
    (e : CGEdge) (he : e ∈ g.edges) : findEdge? g e.src e.tgt = some e :=
  find?_edge_of_mem_nodup g.edges hnd e he

/-- C8: after `add_drift_dist_attr` runs with drift vector `d`, every edge of
the candidate graph stores as `drift_dist` the Euclidean norm of
(source position + d) − target position: the stored radicand is exactly
`(sx + dx − tx)² + (sy + dy − ty)²`, whose nonnegative square root is the
Euclidean norm of the difference vector. -/
theorem add_drift_dist_attr_spec (g : Graph) (d : ℚ × ℚ) (hwf : WFGraph g)
    (e : CGEdge) (he : e ∈ g.edges) :
    ∃ ns nt, findNode? g e.src = some ns ∧ findNode? g e.tgt = some nt ∧
      findEdge? (add_drift_dist_attr g d) e.src e.tgt =
        some { e with attrs := { e.attrs with drift_dist_sq := some (driftVal ns nt d) } } ∧
      Real.sqrt ((driftVal ns nt d : ℚ) : ℝ) =
        Real.sqrt (((ns.attrs.x + d.1 - nt.attrs.x : ℚ) : ℝ) ^ 2 +
                   ((ns.attrs.y + d.2 - nt.attrs.y : ℚ) : ℝ) ^ 2) := by
  obtain ⟨hnodes, hedges, hends⟩ := hwf
  obtain ⟨ns, hns⟩ := exists_findNode?_of_hasNode g e.src (hends e he).1
  obtain ⟨nt, hnt⟩ := exists_findNode?_of_hasNode g e.tgt (hends e he).2
  refine ⟨ns, nt, hns, hnt, ?_, ?_⟩
  · unfold add_drift_dist_attr
    rw [findEdge?_driftFold, if_pos (List.mem_map_of_mem (fun e => (e.src, e.tgt)) he),
      findEdge?_of_mem g hedges e he, Option.map_some']
    unfold driftApply
    rw [hns, hnt]
  · unfold driftVal
    congr 1
    push_cast
    ring

/-- Witness for C8 at the claim's own fixture: source (0,0), drift (−10,0);
for target (−10,0) the stored radicand is 0 (drift distance 0), for target
(0,0) it is 100 (drift distance 10). -/
theorem add_drift_dist_attr_spec_witness :
    findEdge? (add_drift_dist_attr driftExampleGraph (-10, 0)) 1 2 =
      some ⟨1, 2, { drift_dist_sq := some 0 }⟩ ∧
    Real.sqrt ((0 : ℚ) : ℝ) = 0 ∧
    findEdge? (add_drift_dist_attr driftExampleGraph (-10, 0)) 1 3 =
      some ⟨1, 3, { drift_dist_sq := some 100 }⟩ ∧
    Real.sqrt ((100 : ℚ) : ℝ) = 10 := by
  obtain ⟨ns2, nt2, hns2, hnt2, hedge2, _⟩ :=
    add_drift_dist_attr_spec driftExampleGraph (-10, 0) (by decide) ⟨1, 2, {}⟩ (by decide)
  obtain ⟨ns3, nt3, hns3, hnt3, hedge3, _⟩ :=
    add_drift_dist_attr_spec driftExampleGraph (-10, 0) (by decide) ⟨1, 3, {}⟩ (by decide)
  have hn1 : findNode? driftExampleGraph 1 = some ⟨1, { t := 0, x := 0, y := 0 }⟩ := by decide
  have hn2 : findNode? driftExampleGraph 2 = some ⟨2, { t := 1, x := -10, y := 0 }⟩ := by decide
  have hn3 : findNode? driftExampleGraph 3 = some ⟨3, { t := 1, x := 0, y := 0 }⟩ := by decide
  obtain rfl : ns2 = ⟨1, { t := 0, x := 0, y := 0 }⟩ :=
    Option.some.inj (hns2.symm.trans hn1)
  obtain rfl : nt2 = ⟨2, { t := 1, x := -10, y := 0 }⟩ :=
    Option.some.inj (hnt2.symm.trans hn2)
  obtain rfl : ns3 = ⟨1, { t := 0, x := 0, y := 0 }⟩ :=
    Option.some.inj (hns3.symm.trans hn1)
  obtain rfl : nt3 = ⟨3, { t := 1, x := 0, y := 0 }⟩ :=
    Option.some.inj (hnt3.symm.trans hn3)
  have hv2 : driftVal ⟨1, { t := 0, x := 0, y := 0 }⟩ ⟨2, { t := 1, x := -10, y := 0 }⟩
      ((-10 : ℚ), (0 : ℚ)) = 0 := by norm_num [driftVal]
  have hv3 : driftVal ⟨1, { t := 0, x := 0, y := 0 }⟩ ⟨3, { t := 1, x := 0, y := 0 }⟩
      ((-10 : ℚ), (0 : ℚ)) = 100 := by norm_num [driftVal]
  rw [hv2] at hedge2
  rw [hv3] at hedge3
  refine ⟨hedge2, ?_, hedge3, ?_⟩
  · rw [Rat.cast_zero, Real.sqrt_zero]
  · rw [show ((100 : ℚ) : ℝ) = 10 ^ 2 by norm_num, Real.sqrt_sq (by norm_num)]

/-- `find?` commutes with a map that preserves the predicate. -/
theorem find?_map_pred_preserving {α : Type} (F : α → α) (p : α → Bool)
    (hF : ∀ x, p (F x) = p x) (L : List α) :
    (L.map F).find? p = (L.find? p).map F := by
  induction L with
  | nil => rfl
  | cons a rest ih =>
    cases hpa : p a with
    | true => simp [List.find?_cons, hF a, hpa]
    | false => simp [List.find?_cons, hF a, hpa, ih]

/-- `find?` over an append when the prefix already succeeds. -/
theorem find?_append_some {α : Type} (L1 L2 : List α) (p : α → Bool) (x : α)
    (h : L1.find? p = some x) : (L1 ++ L2).find? p = some x := by
  induction L1 with
  | nil => cases h
  | cons a rest ih =>
    cases hpa : p a with
    | true =>
      simp only [List.find?_cons, hpa] at h
      simp only [List.cons_append, List.find?_cons, hpa]
      exact h
    | false =>
      simp only [List.find?_cons, hpa] at h
      simp only [List.cons_append, List.find?_cons, hpa]
      exact ih h

/-- `find?` over an append when the prefix fails. -/
theorem find?_append_none {α : Type} (L1 L2 : List α) (p : α → Bool)
    (h : L1.find? p = none) : (L1 ++ L2).find? p = L2.find? p := by
  induction L1 with
  | nil => rfl
  | cons a rest ih =>
    cases hpa : p a with
    | true =>
      simp only [List.find?_cons, hpa] at h
      cases h
    | false =>
      simp only [List.find?_cons, hpa] at h
      simp only [List.cons_append, List.find?_cons, hpa]
      exact ih h

/-- A ground-truth-node membership test yields a lookup result with that id. -/
theorem exists_findGTNode?_of_has (g : GTGraph) (i : ℤ) (h : hasGTNode g i) :
    ∃ n, findGTNode? g i = some n ∧ n.id = i := by
  unfold hasGTNode at h
  unfold findGTNode?
  rcases List.any_eq_true.mp h with ⟨n, hn, hni⟩
  cases hfind : g.nodes.find? (fun m => m.id == i) with
  | some m =>
    refine ⟨m, rfl, ?_⟩
    have := List.find?_some hfind
    simpa using this
  | none => exact absurd hni (List.find?_eq_none.mp hfind n hn)

/-- A failed membership test means the lookup fails. -/
theorem findGTNode?_eq_none_of_not_has (g : GTGraph) (i : ℤ) (h : ¬ hasGTNode g i) :
    findGTNode? g i = none := by
  unfold hasGTNode at h
  unfold findGTNode?
  cases hfind : g.nodes.find? (fun m => m.id == i) with
  | none => rfl
  | some m =>
    exfalso
    apply h
    apply List.any_eq_true.mpr
    refine ⟨m, List.mem_of_find?_eq_some hfind, ?_⟩
    have hp := List.find?_some hfind
    exact hp

/-- networkx `add_node`: afterwards the node exists and carries exactly the
given attributes — whether it was fresh or is being overwritten. -/
theorem findGTNode?_addGTNode_self (g : GTGraph) (i : ℤ) (a : GTAttrs) :
    findGTNode? (addGTNode g i a) i = some ⟨i, some a⟩ := by
  unfold addGTNode
  by_cases h : hasGTNode g i
  · rw [if_pos h]
    obtain ⟨m, hm, hmi⟩ := exists_findGTNode?_of_has g i h
    unfold findGTNode? at hm ⊢
    rw [find?_map_pred_preserving _ _
      (fun n => by by_cases hn : n.id = i <;> simp [hn]), hm]
    simp [hmi]
  · rw [if_neg h]
    have hnone := findGTNode?_eq_none_of_not_has g i h
    unfold findGTNode? at hnone ⊢
    rw [find?_append_none _ _ _ hnone]
    simp
/-- networkx `add_node` leaves every other node's lookup unchanged. -/
theorem findGTNode?_addGTNode_other (g : GTGraph) (i j : ℤ) (a : GTAttrs) (hij : j ≠ i) :
    findGTNode? (addGTNode g i a) j = findGTNode? g j := by
  unfold addGTNode
  by_cases h : hasGTNode g i
  · rw [if_pos h]
    unfold findGTNode?
    rw [find?_map_pred_preserving _ _
      (fun n => by by_cases hn : n.id = i <;> simp [hn])]
    cases hf : g.nodes.find? (fun m => m.id == j) with
    | none => rfl
    | some m =>
      have hmj : m.id = j := by
        have := List.find?_some hf
        simpa using this
      simp [hmj, hij]
  · rw [if_neg h]
    unfold findGTNode?
    cases hf : g.nodes.find? (fun m => m.id == j) with
    | some m => exact find?_append_some _ _ _ _ hf
    | none =>
      have hji : i ≠ j := fun hc => hij hc.symm
      rw [find?_append_none _ _ _ hf]
      simp [List.find?_cons, hji]

/-- `gtEnsureNode` preserves a successful lookup. -/
theorem findGTNode?_gtEnsureNode_some (g : GTGraph) (w j : ℤ) (n : GTNode)
    (h : findGTNode? g j = some n) : findGTNode? (gtEnsureNode g w) j = some n := by
  unfold gtEnsureNode
  by_cases hw : hasGTNode g w
  · rw [if_pos hw]; exact h
  · rw [if_neg hw]
    unfold findGTNode? at h ⊢
    exact find?_append_some _ _ _ _ h

/-- networkx `add_edge` preserves every successful node lookup (it only adds
missing endpoints and an edge). -/
theorem findGTNode?_addGTEdge_some (g : GTGraph) (u v j : ℤ) (n : GTNode)
    (h : findGTNode? g j = some n) : findGTNode? (addGTEdge g u v) j = some n := by
  have h2 := findGTNode?_gtEnsureNode_some _ v j n (findGTNode?_gtEnsureNode_some g u j n h)
  unfold addGTEdge
  by_cases he : (u, v) ∈ (gtEnsureNode (gtEnsureNode g u) v).edges
  · rw [if_pos he]; exact h2
  · rw [if_neg he]
    unfold findGTNode? at h2 ⊢
    exact h2

/-- After a `read_gt_tracks` row step, the row's node carries the row's
attributes. -/
theorem findGTNode?_gtRowStep_self (g : GTGraph) (r : GTRow) :
    findGTNode? (gtRowStep g r) r.id = some ⟨r.id, some ⟨r.time, r.x, r.y⟩⟩ := by
  unfold gtRowStep
  by_cases hp : r.parent_id ≠ -1
  · rw [if_pos hp]
    exact findGTNode?_addGTEdge_some _ _ _ _ _ (findGTNode?_addGTNode_self g r.id _)
  · rw [if_neg hp]
    exact findGTNode?_addGTNode_self g r.id _

/-- A row step preserves the successful lookup of any other node id. -/
theorem findGTNode?_gtRowStep_other (g : GTGraph) (r : GTRow) (j : ℤ) (n : GTNode)
    (hij : j ≠ r.id) (h : findGTNode? g j = some n) :
    findGTNode? (gtRowStep g r) j = some n := by
  unfold gtRowStep
  have h1 : findGTNode? (addGTNode g r.id ⟨r.time, r.x, r.y⟩) j = some n := by
    rw [findGTNode?_addGTNode_other g r.id j _ hij]; exact h
  by_cases hp : r.parent_id ≠ -1
  · rw [if_pos hp]
    exact findGTNode?_addGTEdge_some _ _ _ _ _ h1
  · rw [if_neg hp]
    exact h1

/-- C4 (amended): `read_gt_tracks` does not fail on duplicate `id` values; it
silently overwrites, so the node stored for an id carries the attributes of
the LAST row with that id. -/
theorem read_gt_tracks_last_row_wins (rows : List GTRow) (i : ℤ) (r : GTRow)
    (h : (rows.filter (fun q => q.id == i)).getLast? = some r) :
    findGTNode? (read_gt_tracks rows) i = some ⟨i, some ⟨r.time, r.x, r.y⟩⟩ := by
  induction rows using List.reverseRecOn with
  | nil => cases h
  | append_singleton rs q ih =>
    unfold read_gt_tracks at ih ⊢
    rw [List.foldl_append, List.foldl_cons, List.foldl_nil]
    rw [List.filter_append] at h
    by_cases hq : q.id = i
    · have hqb : (q.id == i) = true := by simpa using hq
      rw [show List.filter (fun q => q.id == i) [q] = [q] by simp [List.filter_cons, hqb]] at h
      rw [List.getLast?_concat] at h
      obtain rfl : q = r := Option.some.inj h
      have hres := findGTNode?_gtRowStep_self (rs.foldl gtRowStep ⟨[], []⟩) q
      rw [hq] at hres
      exact hres
    · have hqb : (q.id == i) = false := by simpa using hq
      rw [show List.filter (fun q => q.id == i) [q] = [] by simp [List.filter_cons, hqb]] at h
      rw [List.append_nil] at h
      exact findGTNode?_gtRowStep_other _ q i _ (fun hc => hq hc.symm) (ih h)

/-- C4 counterexample to the claim as stated: on two rows sharing `id = 1`
the loader raises nothing — it returns the one-node graph whose attributes
are the second row's (the first row's `t=0, x=1, y=2` are silently
overwritten by `t=1, x=3, y=4`), instead of failing with a DuplicateKey
condition. -/
theorem read_gt_tracks_duplicate_id_no_failure :
    read_gt_tracks dupRows = { nodes := [⟨1, some ⟨1, 3, 4⟩⟩], edges := [] } := by
  decide

/-- Witness for the amended C4 theorem at the duplicate-row input. -/
theorem read_gt_tracks_last_row_wins_witness :
    (dupRows.filter (fun q => q.id == (1 : ℤ))).getLast? = some ⟨1, 1, 3, 4, -1⟩ ∧
    findGTNode? (read_gt_tracks dupRows) 1 = some ⟨1, some ⟨1, 3, 4⟩⟩ := by
  refine ⟨by decide, read_gt_tracks_last_row_wins dupRows 1 ⟨1, 1, 3, 4, -1⟩ (by decide)⟩

/-- A successful node lookup returns a record with the looked-up id. -/
theorem findNode?_id (g : Graph) (j : ℕ) (n : CGNode) (h : findNode? g j = some n) :
    n.id = j := by
  unfold findNode? at h
  have hp := List.find?_some h
  simpa using hp

/-- `annotMarkEdges` only touches edge attributes. -/
theorem annotMarkEdges_nodes (gt : GTGraph) (seg : Seg) (gid : ℤ) (c : ℕ) (acc1 : Graph) :
    (annotMarkEdges gt seg gid c acc1).nodes = acc1.nodes := by
  unfold annotMarkEdges
  generalize candSuccessors acc1 c = L
  induction L generalizing acc1 with
  | nil => rfl
  | cons s rest ih =>
    rw [List.foldl_cons]
    rw [ih (updateEdgeAttrs acc1 c s _)]
    rfl

/-- Node-id skeleton is invariant under a keyed node-attribute update. -/
theorem updateNodeAttrs_nodes_id (g : Graph) (i : ℕ) (f : NodeAttrs → NodeAttrs) :
    ((updateNodeAttrs g i f).nodes).map (fun n => n.id) = g.nodes.map (fun n => n.id) := by
  unfold updateNodeAttrs
  rw [List.map_map]
  apply List.map_congr_left
  intro n _
  by_cases hn : n.id = i <;> simp [hn]

/-- Node membership is determined by the id skeleton. -/
theorem hasNode_iff_mem_map (g : Graph) (i : ℕ) :
    hasNode g i ↔ i ∈ g.nodes.map (fun n => n.id) := by
  unfold hasNode
  rw [List.any_eq_true]
  constructor
  · rintro ⟨n, hn, hni⟩
    have hni2 : n.id = i := by simpa using hni
    exact hni2 ▸ List.mem_map_of_mem _ hn
  · intro hi
    rcases List.mem_map.mp hi with ⟨n, hn, hni⟩
    exact ⟨n, hn, by simpa using hni⟩

/-- `annotStep` preserves the node-id skeleton. -/
theorem annotStep_nodes_id (gt : GTGraph) (seg : Seg) (acc : Graph) (gn : GTNode) :
    ((annotStep gt seg acc gn).nodes).map (fun n => n.id) = acc.nodes.map (fun n => n.id) := by
  unfold annotStep
  cases hga : gn.attrs with
  | none => rfl
  | some a =>
    dsimp only
    by_cases hc : get_cand_id seg a ≠ 0 ∧ hasNode acc (get_cand_id seg a)
    · rw [if_pos hc, annotMarkEdges_nodes]
      exact updateNodeAttrs_nodes_id acc _ _
    · rw [if_neg hc]

/-- A fold of `annotStep` preserves the node-id skeleton. -/
theorem annotFold_nodes_id (gt : GTGraph) (seg : Seg) (L : List GTNode) (g : Graph) :
    ((L.foldl (annotStep gt seg) g).nodes).map (fun n => n.id) = g.nodes.map (fun n => n.id) := by
  induction L generalizing g with
  | nil => rfl
  | cons gn rest ih =>
    rw [List.foldl_cons, ih (annotStep gt seg g gn), annotStep_nodes_id]

/-- `annotStep` leaves the lookup of an id matched by no ground-truth sample
unchanged. -/
theorem findNode?_annotStep_other (gt : GTGraph) (seg : Seg) (acc : Graph) (gn : GTNode)
    (j : ℕ) (hne : ∀ a, gn.attrs = some a → get_cand_id seg a ≠ j) :
    findNode? (annotStep gt seg acc gn) j = findNode? acc j := by
  unfold annotStep
  cases hga : gn.attrs with
  | none => rfl
  | some a =>
    dsimp only
    by_cases hc : get_cand_id seg a ≠ 0 ∧ hasNode acc (get_cand_id seg a)
    · rw [if_pos hc]
      rw [findNode?_congr _ _ (annotMarkEdges_nodes gt seg gn.id _ _)]
      unfold annotMarkNode
      rw [findNode?_updateNodeAttrs]
      cases hf : findNode? acc j with
      | none => rfl
      | some n =>
        have hnj : n.id = j := findNode?_id acc j n hf
        rw [Option.map_some']
        have : ¬ n.id = get_cand_id seg a := by
          rw [hnj]
          exact fun hc2 => hne a hga hc2.symm
        rw [if_neg this]
    · rw [if_neg hc]

/-- Once a node's `gt` is `True`, every later `annotStep` keeps it `True`. -/
theorem findNode?_annotStep_sticky (gt : GTGraph) (seg : Seg) (acc : Graph) (gn : GTNode)
    (j : ℕ) (n : CGNode) (h : findNode? acc j = some n) (hgt : n.attrs.gt = some true) :
    ∃ n2, findNode? (annotStep gt seg acc gn) j = some n2 ∧ n2.attrs.gt = some true := by
  unfold annotStep
  cases hga : gn.attrs with
  | none => exact ⟨n, h, hgt⟩
  | some a =>
    dsimp only
    by_cases hc : get_cand_id seg a ≠ 0 ∧ hasNode acc (get_cand_id seg a)
    · rw [if_pos hc]
      rw [findNode?_congr _ _ (annotMarkEdges_nodes gt seg gn.id _ _)]
      unfold annotMarkNode
      rw [findNode?_updateNodeAttrs, h, Option.map_some']
      by_cases hid : n.id = get_cand_id seg a
      · rw [if_pos hid]
        exact ⟨_, rfl, rfl⟩
      · rw [if_neg hid]
        exact ⟨n, rfl, hgt⟩
    · rw [if_neg hc]
      exact ⟨n, h, hgt⟩

/-- The `annotStep` of a ground-truth node whose sampled candidate id is
nonzero and present marks that candidate node `gt = True`. -/
theorem findNode?_annotStep_marks (gt : GTGraph) (seg : Seg) (acc : Graph) (gn : GTNode)
    (a : GTAttrs) (hga : gn.attrs = some a) (h0 : get_cand_id seg a ≠ 0)
    (hh : hasNode acc (get_cand_id seg a)) :
    ∃ n2, findNode? (annotStep gt seg acc gn) (get_cand_id seg a) = some n2 ∧
      n2.attrs.gt = some true := by
  unfold annotStep
  rw [hga]
  dsimp only
  rw [if_pos ⟨h0, hh⟩]
  rw [findNode?_congr _ _ (annotMarkEdges_nodes gt seg gn.id _ _)]
  obtain ⟨m, hm⟩ := exists_findNode?_of_hasNode acc _ hh
  have hmc : m.id = get_cand_id seg a := findNode?_id acc _ m hm
  unfold annotMarkNode
  rw [findNode?_updateNodeAttrs, hm, Option.map_some', if_pos hmc]
  exact ⟨_, rfl, rfl⟩

/-- A fold of `annotStep` leaves ids matched by no ground-truth sample
unchanged. -/
theorem findNode?_annotFold_other (gt : GTGraph) (seg : Seg) (L : List GTNode) (g : Graph)
    (j : ℕ) (hne : ∀ gn ∈ L, ∀ a, gn.attrs = some a → get_cand_id seg a ≠ j) :
    findNode? (L.foldl (annotStep gt seg) g) j = findNode? g j := by
  induction L generalizing g with
  | nil => rfl
  | cons gn rest ih =>
    rw [List.foldl_cons, ih (annotStep gt seg g gn)
      (fun x hx => hne x (List.mem_cons_of_mem gn hx)),
      findNode?_annotStep_other gt seg g gn j (hne gn (List.mem_cons_self gn rest))]

/-- A fold of `annotStep` keeps an already-`True` node `True`. -/
theorem findNode?_annotFold_sticky (gt : GTGraph) (seg : Seg) (L : List GTNode) (g : Graph)
    (j : ℕ) (n : CGNode) (h : findNode? g j = some n) (hgt : n.attrs.gt = some true) :
    ∃ n2, findNode? (L.foldl (annotStep gt seg) g) j = some n2 ∧ n2.attrs.gt = some true := by
  induction L generalizing g n with
  | nil => exact ⟨n, h, hgt⟩
  | cons gn rest ih =>
    rw [List.foldl_cons]
    obtain ⟨n1, h1, hgt1⟩ := findNode?_annotStep_sticky gt seg g gn j n h hgt
    exact ih (annotStep gt seg g gn) n1 h1 hgt1

/-- Lookup through the closing default pass of `add_gt_annotations`. -/
theorem findNode?_gtDefault (g1 : Graph) (j : ℕ) :
    findNode? { g1 with nodes := g1.nodes.map (fun n =>
        if n.attrs.gt = none then { n with attrs := { n.attrs with gt := some false } } else n) } j
      = (findNode? g1 j).map (fun n =>
        if n.attrs.gt = none then { n with attrs := { n.attrs with gt := some false } } else n) := by
  unfold findNode?
  exact find?_map_id_preserving _
    (fun n => by by_cases hn : n.attrs.gt = none <;> simp [hn]) g1.nodes j

/-- C3 (amended): the Ground-Truth Annotator determines the matching
candidate node id by sampling the segmentation at the TRUNCATED (Python
`int()`, toward zero — not rounded) integer coordinates of the node's
(t, x, y) position: each ground-truth node whose sample is nonzero and names
an existing candidate node leaves that node with `gt = True`, and a candidate
node matched by no ground-truth sample whose `gt` attribute was absent ends
with `gt = False` (closed-world default). -/
theorem add_gt_annotations_spec (gt : GTGraph) (g : Graph) (seg : Seg) :
    (∀ gn ∈ gt.nodes, ∀ a, gn.attrs = some a →
      get_cand_id seg a ≠ 0 → hasNode g (get_cand_id seg a) →
      ∃ n, findNode? (add_gt_annotations gt g seg) (get_cand_id seg a) = some n ∧
        n.attrs.gt = some true) ∧
    (∀ j n, (∀ gn ∈ gt.nodes, ∀ a, gn.attrs = some a → get_cand_id seg a ≠ j) →
      findNode? g j = some n → n.attrs.gt = none →
      findNode? (add_gt_annotations gt g seg) j =
        some { n with attrs := { n.attrs with gt := some false } }) := by
  constructor
  · intro gn hgn a hga h0 hh
    obtain ⟨l1, l2, hsplit⟩ := List.append_of_mem hgn
    unfold add_gt_annotations
    rw [hsplit, List.foldl_append, List.foldl_cons]
    have hh1 : hasNode (l1.foldl (annotStep gt seg) g) (get_cand_id seg a) := by
      rw [hasNode_iff_mem_map, annotFold_nodes_id, ← hasNode_iff_mem_map]
      exact hh
    obtain ⟨n1, h1, hgt1⟩ :=
      findNode?_annotStep_marks gt seg (l1.foldl (annotStep gt seg) g) gn a hga h0 hh1
    obtain ⟨n2, h2, hgt2⟩ :=
      findNode?_annotFold_sticky gt seg l2 _ (get_cand_id seg a) n1 h1 hgt1
    rw [findNode?_gtDefault, h2, Option.map_some', hgt2]
    exact ⟨_, rfl, by rw [if_neg (by simp [hgt2])]; exact hgt2⟩
  · intro j n hne hf hnone
    unfold add_gt_annotations
    rw [findNode?_gtDefault, findNode?_annotFold_other gt seg gt.nodes g j hne, hf,
      Option.map_some', if_pos hnone]

/-- C3 counterexample to the claim as stated: at ground-truth position
(t, x, y) = (0, 0.6, 0), the source samples the segmentation at the truncated
coordinates (row 0, label 7), not at the rounded coordinates (row 1, label
9): the annotator marks candidate node 7 `gt = True` while the
rounded-coordinate candidate 9 ends `gt = False`. -/
theorem get_cand_id_truncates_not_rounds :
    get_cand_id annotSeg annotGTAttrs = 7 ∧
    get_cand_id_rounded annotSeg annotGTAttrs = 9 ∧
    (∃ n, findNode? (add_gt_annotations annotGT annotCand annotSeg) 7 = some n ∧
      n.attrs.gt = some true) ∧
    findNode? (add_gt_annotations annotGT annotCand annotSeg) 9 =
      some ⟨9, { t := 0, x := 1, y := 0, gt := some false }⟩ := by
  have hpx : pyInt (3 / 5 : ℚ) = 0 := by
    unfold pyInt
    rw [if_pos (by norm_num)]
    norm_num
  have hpy : pyInt (0 : ℚ) = 0 := by
    unfold pyInt
    rw [if_pos le_rfl]
    norm_num
  have h7 : get_cand_id annotSeg annotGTAttrs = 7 := by
    show annotSeg.val ((0 : ℤ).toNat) ((pyInt (3 / 5 : ℚ)).toNat) ((pyInt (0 : ℚ)).toNat) = 7
    rw [hpx, hpy]
    rfl
  have h9 : get_cand_id_rounded annotSeg annotGTAttrs = 9 := by
    show annotSeg.val ((0 : ℤ).toNat) ((round (3 / 5 : ℚ)).toNat) ((round (0 : ℚ)).toNat) = 9
    rw [show round (3 / 5 : ℚ) = 1 by norm_num [round_eq], show round (0 : ℚ) = 0 by norm_num]
    rfl
  refine ⟨h7, h9, ?_, ?_⟩
  · obtain ⟨n1, h1, hgt1⟩ := findNode?_annotStep_marks annotGT annotSeg annotCand
      ⟨100, some annotGTAttrs⟩ annotGTAttrs rfl (by rw [h7]; decide) (by rw [h7]; decide)
    unfold add_gt_annotations
    rw [show annotGT.nodes = [⟨100, some annotGTAttrs⟩] from rfl,
      List.foldl_cons, List.foldl_nil, findNode?_gtDefault]
    rw [h7] at h1
    rw [h1, Option.map_some']
    exact ⟨_, rfl, by rw [if_neg (by simp [hgt1])]; exact hgt1⟩
  · have hne : ∀ gn ∈ annotGT.nodes, ∀ a, gn.attrs = some a →
        get_cand_id annotSeg a ≠ 9 := by
      intro gn hgn a hga
      have hgn2 : gn = ⟨100, some annotGTAttrs⟩ := by
        simpa [annotGT] using hgn
      subst hgn2
      obtain rfl : a = annotGTAttrs := (Option.some.inj hga).symm
      rw [h7]
      decide
    have hf9 : findNode? annotCand 9 = some ⟨9, { t := 0, x := 1, y := 0 }⟩ := by decide
    unfold add_gt_annotations
    rw [findNode?_gtDefault, findNode?_annotFold_other annotGT annotSeg annotGT.nodes
      annotCand 9 hne, hf9, Option.map_some',
      if_pos (show (⟨9, { t := 0, x := 1, y := 0 }⟩ : CGNode).attrs.gt = none from rfl)]

/-- Witness for the amended C3 theorem at a concrete integer-coordinate
fixture: the matched detection 5 ends `gt = True`, the unmatched detection 6
ends `gt = False`. -/
theorem add_gt_annotations_spec_witness :
    (∃ n, findNode? (add_gt_annotations annotWGT annotWCand annotWSeg) 5 = some n ∧
      n.attrs.gt = some true) ∧
    findNode? (add_gt_annotations annotWGT annotWCand annotWSeg) 6 =
      some ⟨6, { t := 0, x := 0, y := 0, gt := some false }⟩ := by
  have hpx : pyInt (2 : ℚ) = 2 := by
    unfold pyInt
    rw [if_pos (by norm_num)]
    norm_num
  have hpy : pyInt (1 : ℚ) = 1 := by
    unfold pyInt
    rw [if_pos (by norm_num)]
    norm_num
  have hgc : get_cand_id annotWSeg ⟨0, 2, 1⟩ = 5 := by
    show annotWSeg.val ((0 : ℤ).toNat) ((pyInt (2 : ℚ)).toNat) ((pyInt (1 : ℚ)).toNat) = 5
    rw [hpx, hpy]
    rfl
  obtain ⟨hmark, hdefault⟩ := add_gt_annotations_spec annotWGT annotWCand annotWSeg
  constructor
  · have := hmark ⟨200, some ⟨0, 2, 1⟩⟩ (by decide) ⟨0, 2, 1⟩ rfl
      (by rw [hgc]; decide) (by rw [hgc]; decide)
    rw [hgc] at this
    exact this
  · apply hdefault 6 ⟨6, { t := 0, x := 0, y := 0 }⟩
    · intro gn hgn a hga
      have hgn2 : gn = ⟨200, some ⟨0, 2, 1⟩⟩ := by
        simpa [annotWGT] using hgn
      subst hgn2
      obtain rfl : a = ⟨0, 2, 1⟩ := (Option.some.inj hga).symm
      rw [hgc]
      decide
    · decide
    · rfl

/-- C1 (code bug): on a frame gap `add_cand_edges` keeps a stale
`prev_node_ids` (the `continue` skips the end-of-loop update). With nodes
only in frames 0, 2 and 3 (frame 1 empty) and `max_edge_distance = 50`, the
only edge produced connects node 1 (frame 0) to node 3 (frame 3) — a frame
difference of 3, across the gap — while the truly adjacent pair
node 2 (frame 2) → node 3 (frame 3) is not linked, contrary to the
function's own docstring ("connecting all nodes in adjacent frames that are
closer than max_edge_distance"). -/
theorem add_cand_edges_gap_bug :
    (add_cand_edges gapGraph 50).edges.map (fun e => (e.src, e.tgt)) = [(1, 3)] ∧
    (findNode? gapGraph 1).map (fun n => n.attrs.t) = some 0 ∧
    (findNode? gapGraph 2).map (fun n => n.attrs.t) = some 2 ∧
    (findNode? gapGraph 3).map (fun n => n.attrs.t) = some 3 := by
  refine ⟨?_, by decide, by decide, by decide⟩
  have hp1 : posOf gapGraph 1 = ((0 : ℚ), (0 : ℚ)) := rfl
  have hp3 : posOf gapGraph 3 = ((0 : ℚ), (0 : ℚ)) := rfl
  have hmem : distSq (posOf gapGraph 1) (posOf gapGraph 3) ≤ (50 : ℚ) ^ 2 := by
    rw [hp1, hp3]
    norm_num [distSq]
  have hfilter : ([3].filter
      (fun nid => distSq (posOf gapGraph 1) (posOf gapGraph nid) ≤ (50 : ℚ) ^ 2)) = [3] :=
    List.filter_eq_self.mpr (by
      intro a ha
      have ha3 : a = 3 := by simpa using ha
      subst ha3
      exact decide_eq_true hmem)
  have hlink : linkFrames gapGraph [1] [3] 50 gapGraph =
      { gapGraph with edges := [⟨1, 3, {}⟩] } := by
    unfold linkFrames
    rw [List.foldl_cons, List.foldl_nil, hfilter]
    rfl
  have hstep0 : candEdgeStep gapGraph 50 ([1], gapGraph) 0 = ([1], gapGraph) := by
    unfold candEdgeStep
    rw [if_pos (by decide)]
  have hstep2 : candEdgeStep gapGraph 50 ([1], gapGraph) 2 =
      ([3], { gapGraph with edges := [⟨1, 3, {}⟩] }) := by
    unfold candEdgeStep
    rw [if_neg (by decide)]
    rw [show nodesInFrame gapGraph (2 + 1) = [3] from by decide]
    rw [hlink]
  have hstep3 : candEdgeStep gapGraph 50 ([3], { gapGraph with edges := [⟨1, 3, {}⟩] }) 3 =
      ([3], { gapGraph with edges := [⟨1, 3, {}⟩] }) := by
    unfold candEdgeStep
    rw [if_pos (by decide)]
  have hfl : frameList gapGraph = [0, 2, 3] := by decide
  unfold add_cand_edges
  rw [hfl]
  dsimp only
  rw [show nodesInFrame gapGraph 0 = [1] from by decide]
  rw [List.foldl_cons, hstep0, List.foldl_cons, hstep2, List.foldl_cons, hstep3,
    List.foldl_nil]
  rfl

/-- The relabel fold, rebased onto the input node list: the assigned graph's
nodes are the input nodes with `tracklet_id` filled in, so folding over them
writes `tracklet_id_of g n.id` for each input node `n`. -/
theorem relabel_fold_eq (g : Graph) (seg : Seg) :
    (relabel_segmentation g seg).2 =
      g.nodes.foldl
        (fun acc n => writeNodeMask seg n.id n.attrs.t (tracklet_id_of g n.id) acc)
        (zerosLike seg) := by
  unfold relabel_segmentation assign_tracklet_ids
  dsimp only
  rw [List.foldl_map]
  rfl

/-- The relabel fold preserves the array shape. -/
theorem relabel_fold_shape (g : Graph) (seg : Seg) (L : List CGNode) (acc : Seg) :
    ((L.foldl (fun acc n => writeNodeMask seg n.id n.attrs.t (tracklet_id_of g n.id) acc)
        acc).T = acc.T) ∧
    ((L.foldl (fun acc n => writeNodeMask seg n.id n.attrs.t (tracklet_id_of g n.id) acc)
        acc).R = acc.R) ∧
    ((L.foldl (fun acc n => writeNodeMask seg n.id n.attrs.t (tracklet_id_of g n.id) acc)
        acc).C = acc.C) := by
  induction L generalizing acc with
  | nil => exact ⟨rfl, rfl, rfl⟩
  | cons n rest ih =>
    rw [List.foldl_cons]
    exact ih (writeNodeMask seg n.id n.attrs.t (tracklet_id_of g n.id) acc)

/-- A pixel matched by no node of the folded list keeps its accumulator
value. -/
theorem relabel_fold_untouched (g : Graph) (seg : Seg) (L : List CGNode) (acc : Seg)
    (t r c : ℕ) (h : ∀ n ∈ L, ¬(n.attrs.t = t ∧ seg.val t r c = n.id)) :
    (L.foldl (fun acc n => writeNodeMask seg n.id n.attrs.t (tracklet_id_of g n.id) acc)
        acc).val t r c = acc.val t r c := by
  induction L generalizing acc with
  | nil => rfl
  | cons n rest ih =>
    rw [List.foldl_cons, ih _ (fun m hm => h m (List.mem_cons_of_mem n hm))]
    unfold writeNodeMask
    dsimp only
    rw [if_neg (fun hcond =>
      h n (List.mem_cons_self n rest) ⟨hcond.1.symm, by rw [hcond.1]; exact hcond.2⟩)]

/-- A pixel matched by node `n` and by no node listed after `n` carries
`n`'s tracklet id after the fold. -/
theorem relabel_fold_written (g : Graph) (seg : Seg) (l1 l2 : List CGNode) (n : CGNode)
    (acc : Seg) (r c : ℕ) (hmatch : seg.val n.attrs.t r c = n.id)
    (hl2 : ∀ m ∈ l2, ¬(m.attrs.t = n.attrs.t ∧ seg.val n.attrs.t r c = m.id)) :
    ((l1 ++ n :: l2).foldl
        (fun acc m => writeNodeMask seg m.id m.attrs.t (tracklet_id_of g m.id) acc)
        acc).val n.attrs.t r c = tracklet_id_of g n.id := by
  rw [List.foldl_append, List.foldl_cons]
  rw [relabel_fold_untouched g seg l2 _ n.attrs.t r c hl2]
  unfold writeNodeMask
  dsimp only
  rw [if_pos ⟨rfl, hmatch⟩]

/-- C9: the output of `relabel_segmentation` has the input's shape; for each
solution node, every pixel of that node's frame whose original value is the
node's id carries the node's tracklet id; every pixel matched by no solution
node — in particular every pixel of a detection absent from the solution
graph, and every background pixel — is 0. -/
theorem relabel_segmentation_spec (g : Graph) (seg : Seg)
    (hnd : (g.nodes.map (fun n => n.id)).Nodup)
    (h0 : ∀ n ∈ g.nodes, n.id ≠ 0) :
    ((relabel_segmentation g seg).2.T = seg.T ∧ (relabel_segmentation g seg).2.R = seg.R ∧
      (relabel_segmentation g seg).2.C = seg.C) ∧
    (∀ n ∈ g.nodes, ∀ r c, seg.val n.attrs.t r c = n.id →
      (relabel_segmentation g seg).2.val n.attrs.t r c = tracklet_id_of g n.id) ∧
    (∀ t r c, (∀ n ∈ g.nodes, ¬(n.attrs.t = t ∧ seg.val t r c = n.id)) →
      (relabel_segmentation g seg).2.val t r c = 0) ∧
    (∀ t r c, seg.val t r c = 0 → (relabel_segmentation g seg).2.val t r c = 0) := by
  have huntouched : ∀ t r c, (∀ n ∈ g.nodes, ¬(n.attrs.t = t ∧ seg.val t r c = n.id)) →
      (relabel_segmentation g seg).2.val t r c = 0 := by
    intro t r c h
    rw [relabel_fold_eq, relabel_fold_untouched g seg g.nodes _ t r c h]
    rfl
  refine ⟨?_, ?_, huntouched, ?_⟩
  · rw [relabel_fold_eq]
    exact relabel_fold_shape g seg g.nodes (zerosLike seg)
  · intro n hn r c hmatch
    obtain ⟨l1, l2, hsplit⟩ := List.append_of_mem hn
    have hnomem : n.id ∉ (l2.map (fun m => m.id)) := by
      rw [hsplit, List.map_append, List.map_cons] at hnd
      have hmid := (List.nodup_middle).mp hnd
      have := (List.nodup_cons.mp hmid).1
      intro hc
      exact this (List.mem_append.mpr (Or.inr hc))
    have hl2 : ∀ m ∈ l2, ¬(m.attrs.t = n.attrs.t ∧ seg.val n.attrs.t r c = m.id) := by
      intro m hm hcond
      apply hnomem
      have : m.id = n.id := by rw [← hcond.2, hmatch]
      rw [← this]
      exact List.mem_map_of_mem _ hm
    rw [relabel_fold_eq, hsplit]
    exact relabel_fold_written g seg l1 l2 n (zerosLike seg) r c hmatch hl2
  · intro t r c hz
    apply huntouched
    intro n hn hcond
    exact h0 n hn (by rw [← hcond.2, hz])

/-- C10: `relabel_segmentation` returns the input graph mutated so that every
node additionally carries a `tracklet_id` attribute (ids, positions, frames
and edges untouched), while the relabeled volume starts from a fresh all-zero
array — a pixel written by no node is 0 in the output regardless of the input
segmentation's value there (the input array itself is only read). -/
theorem relabel_segmentation_frame_effect (g : Graph) (seg : Seg) :
    (relabel_segmentation g seg).1.nodes.length = g.nodes.length ∧
    (relabel_segmentation g seg).1.edges = g.edges ∧
    (∀ n ∈ g.nodes, ∃ n2 ∈ (relabel_segmentation g seg).1.nodes,
      n2.id = n.id ∧ n2.attrs.t = n.attrs.t ∧ n2.attrs.x = n.attrs.x ∧
      n2.attrs.y = n.attrs.y ∧ n2.attrs.tracklet_id = some (tracklet_id_of g n.id)) ∧
    (∀ t r c, (∀ n ∈ g.nodes, ¬(n.attrs.t = t ∧ seg.val t r c = n.id)) →
      (relabel_segmentation g seg).2.val t r c = 0) := by
  refine ⟨?_, rfl, ?_, ?_⟩
  · unfold relabel_segmentation assign_tracklet_ids
    dsimp only
    exact List.length_map _ _
  · intro n hn
    refine ⟨{ n with attrs := { n.attrs with tracklet_id := some (tracklet_id_of g n.id) } },
      ?_, rfl, rfl, rfl, rfl, rfl⟩
    unfold relabel_segmentation assign_tracklet_ids
    dsimp only
    exact List.mem_map_of_mem _ hn
  · intro t r c h
    rw [relabel_fold_eq, relabel_fold_untouched g seg g.nodes _ t r c h]
    rfl

/-- Witness for C9 at the concrete two-node track: both pixels of the track
carry the shared tracklet id 4 (including the second frame's node 8), and
the pixel of the absent detection 13 is 0. -/
theorem relabel_segmentation_spec_witness :
    (relabel_segmentation relabelGraph relabelSeg).2.val 0 0 0 = 4 ∧
    (relabel_segmentation relabelGraph relabelSeg).2.val 1 0 1 = 4 ∧
    (relabel_segmentation relabelGraph relabelSeg).2.val 1 0 0 = 0 := by
  obtain ⟨hshape, hpaint, huntouched, hbg⟩ :=
    relabel_segmentation_spec relabelGraph relabelSeg (by decide) (by decide)
  refine ⟨?_, ?_, huntouched 1 0 0 (by decide)⟩
  · have hw := hpaint ⟨4, { t := 0, x := 0, y := 0 }⟩ (by decide) 0 0 (by decide)
    rw [show tracklet_id_of relabelGraph 4 = 4 from by decide] at hw
    exact hw
  · have hw := hpaint ⟨8, { t := 1, x := 0, y := 0 }⟩ (by decide) 0 1 (by decide)
    rw [show tracklet_id_of relabelGraph 8 = 4 from by decide] at hw
    exact hw

/-- Witness for C10 at the same fixture: the returned graph has both nodes,
node 4 carries `tracklet_id = 4`, and an unwritten pixel is 0. -/
theorem relabel_segmentation_frame_effect_witness :
    (relabel_segmentation relabelGraph relabelSeg).1.nodes.length = 2 ∧
    (∃ n2 ∈ (relabel_segmentation relabelGraph relabelSeg).1.nodes,
      n2.id = 4 ∧ n2.attrs.tracklet_id = some 4) ∧
    (relabel_segmentation relabelGraph relabelSeg).2.val 0 0 1 = 0 := by
  obtain ⟨hlen, hedges, hnodes, huntouched⟩ :=
    relabel_segmentation_frame_effect relabelGraph relabelSeg
  refine ⟨by rw [hlen]; decide, ?_, huntouched 0 0 1 (by decide)⟩
  have hw := hnodes ⟨4, { t := 0, x := 0, y := 0 }⟩ (by decide)
  obtain ⟨n2, hmem, hid, _, _, _, htr⟩ := hw
  rw [show tracklet_id_of relabelGraph 4 = 4 from by decide] at htr
  exact ⟨n2, hmem, hid, htr⟩

/-- A parent pointer comes from an incoming edge. -/
theorem parentOf_edge (g : Graph) (i p : ℕ) (h : parentOf g i = some p) :
    ∃ e ∈ g.edges, e.src = p ∧ e.tgt = i := by
  unfold parentOf at h
  cases hl : (g.edges.filter (fun e => e.tgt == i)) with
  | nil => rw [hl] at h; cases h
  | cons e rest =>
    rw [hl] at h
    simp only [List.head?_cons, Option.map_some'] at h
    have hmem : e ∈ g.edges.filter (fun e => e.tgt == i) := by
      rw [hl]; exact List.mem_cons_self e rest
    refine ⟨e, List.mem_of_mem_filter hmem, Option.some.inj h, ?_⟩
    have hp := List.of_mem_filter hmem
    simpa using hp

/-- The parent pointer is empty exactly on in-degree-0 nodes. -/
theorem parentOf_none_iff (g : Graph) (i : ℕ) :
    parentOf g i = none ↔ gInDeg g i = 0 := by
  unfold parentOf gInDeg
  cases hl : (g.edges.filter (fun e => e.tgt == i)) with
  | nil => simp
  | cons e rest => simp

/-- With in-degree ≤ 1, any incoming edge determines the parent pointer. -/
theorem parentOf_of_edge (g : Graph) (H1 : ∀ j, gInDeg g j ≤ 1) (p i : ℕ)
    (h : edgeRel g p i) : parentOf g i = some p := by
  obtain ⟨e, he, hs, ht⟩ := h
  have hmem : e ∈ g.edges.filter (fun e => e.tgt == i) :=
    List.mem_filter.mpr ⟨he, by simp [ht]⟩
  have hlen := H1 i
  unfold gInDeg at hlen
  have hsing : g.edges.filter (fun e => e.tgt == i) = [e] := by
    cases hl : (g.edges.filter (fun e => e.tgt == i)) with
    | nil => rw [hl] at hmem; cases hmem
    | cons a rest =>
      rw [hl] at hlen hmem
      simp only [List.length_cons] at hlen
      have hrest : rest = [] := List.eq_nil_of_length_eq_zero (by omega)
      subst hrest
      have ha := List.mem_singleton.mp hmem
      rw [ha]
  unfold parentOf
  rw [hsing]
  simp [hs]

/-- Induction along parent chains, well-founded because the frame index
strictly decreases at every parent step. -/
theorem parent_induction (g : Graph)
    (Hpt : ∀ i p, parentOf g i = some p → timeOf g i = timeOf g p + 1)
    (P : ℕ → Prop)
    (base : ∀ i, parentOf g i = none → P i)
    (step : ∀ i p, parentOf g i = some p → P p → P i) :
    ∀ i, P i := by
  have key : ∀ fuel i, timeOf g i ≤ fuel → P i := by
    intro fuel
    induction fuel with
    | zero =>
      intro i hi
      cases hp : parentOf g i with
      | none => exact base i hp
      | some p =>
        have ht := Hpt i p hp
        omega
    | succ f ih =>
      intro i hi
      cases hp : parentOf g i with
      | none => exact base i hp
      | some p =>
        have ht := Hpt i p hp
        exact step i p hp (ih p (by omega))
  exact fun i => key (timeOf g i) i le_rfl

/-- A node without parent is its own root, whatever the fuel. -/
theorem rootAux_parent_none (g : Graph) (i : ℕ) (h : parentOf g i = none) :
    ∀ fuel, rootAux g fuel i = i := by
  intro fuel
  cases fuel with
  | zero => rfl
  | succ f =>
    unfold rootAux
    rw [h]

/-- A node without parent is its own root. -/
theorem rootOf_parent_none (g : Graph) (i : ℕ) (h : parentOf g i = none) :
    rootOf g i = i :=
  rootAux_parent_none g i h (timeOf g i)

/-- The root of a node is the root of its parent. -/
theorem rootOf_parent_some (g : Graph)
    (Hpt : ∀ i p, parentOf g i = some p → timeOf g i = timeOf g p + 1)
    (i p : ℕ) (h : parentOf g i = some p) :
    rootOf g i = rootOf g p := by
  have hstep : rootAux g (timeOf g p + 1) i = rootAux g (timeOf g p) p := by
    show (match parentOf g i with
          | none => i
          | some q => rootAux g (timeOf g p) q) = rootAux g (timeOf g p) p
    rw [h]
  unfold rootOf
  rw [Hpt i p h, hstep]

/-- Root facts, by induction along parent chains: the root has in-degree 0,
reaches its node by a directed path, and is a node of the graph whenever the
node is. -/
theorem rootOf_facts (g : Graph)
    (Hpt : ∀ i p, parentOf g i = some p → timeOf g i = timeOf g p + 1)
    (Hend : ∀ e ∈ g.edges, hasNode g e.src ∧ hasNode g e.tgt) :
    ∀ i, gInDeg g (rootOf g i) = 0 ∧ Reaches g (rootOf g i) i ∧
      (hasNode g i → hasNode g (rootOf g i)) := by
  apply parent_induction g Hpt
  · intro i hp
    rw [rootOf_parent_none g i hp]
    exact ⟨(parentOf_none_iff g i).mp hp, Relation.ReflTransGen.refl, fun h => h⟩
  · intro i p hp ih
    obtain ⟨ih1, ih2, ih3⟩ := ih
    rw [rootOf_parent_some g Hpt i p hp]
    obtain ⟨e, he, hs, ht⟩ := parentOf_edge g i p hp
    have hedge : edgeRel g p i := ⟨e, he, hs, ht⟩
    refine ⟨ih1, Relation.ReflTransGen.tail ih2 hedge, fun _ => ih3 ?_⟩
    exact hs ▸ (Hend e he).1

/-- Adjacent nodes share a root. -/
theorem rootOf_edge (g : Graph) (H1 : ∀ j, gInDeg g j ≤ 1)
    (Hpt : ∀ i p, parentOf g i = some p → timeOf g i = timeOf g p + 1)
    (a b : ℕ) (h : edgeRel g a b) : rootOf g b = rootOf g a :=
  rootOf_parent_some g Hpt b a (parentOf_of_edge g H1 a b h)

/-- Weakly connected nodes share a root, and conversely. -/
theorem wconn_iff_rootOf (g : Graph) (H1 : ∀ j, gInDeg g j ≤ 1)
    (Hpt : ∀ i p, parentOf g i = some p → timeOf g i = timeOf g p + 1)
    (Hend : ∀ e ∈ g.edges, hasNode g e.src ∧ hasNode g e.tgt)
    (i j : ℕ) : WConn g i j ↔ rootOf g i = rootOf g j := by
  constructor
  · intro h
    induction h with
    | refl => rfl
    | tail hab hbc ihab =>
      rcases hbc with hbc | hcb
      · rw [ihab, rootOf_edge g H1 Hpt _ _ hbc]
      · rw [ihab, ← rootOf_edge g H1 Hpt _ _ hcb]
  · intro h
    have hsym : Symmetric (fun a b => edgeRel g a b ∨ edgeRel g b a) :=
      fun a b hab => hab.symm
    have hreach : ∀ k, WConn g (rootOf g k) k := by
      intro k
      exact Relation.ReflTransGen.mono (fun a b hab => Or.inl hab) (rootOf_facts g Hpt Hend k).2.1
    have h1 : WConn g i (rootOf g i) := (Relation.ReflTransGen.symmetric hsym) (hreach i)
    have h2 : WConn g (rootOf g j) j := hreach j
    rw [h] at h1
    exact Relation.ReflTransGen.trans h1 h2

/-- An edge-membership test yields an edge record with that key. -/
theorem exists_edge_of_hasEdge (g : Graph) (u v : ℕ) (h : hasEdge g u v) :
    ∃ e ∈ g.edges, e.src = u ∧ e.tgt = v := by
  unfold hasEdge at h
  rcases List.any_eq_true.mp h with ⟨e, he, hp⟩
  simp only [Bool.and_eq_true, beq_iff_eq] at hp
  exact ⟨e, he, hp⟩

/-- The selected subgraph's edge keys are a permutation of the selected edge
keys (both are duplicate-free lists with the same members). -/
theorem selectedSubgraph_edge_keys_perm (g : Graph) (sel : Selection)
    (hwf : WFGraph g) (hfeas : feasible g sel) :
    ((selectedSubgraph g sel).edges.map (fun e => (e.src, e.tgt))).Perm sel.selEdges := by
  obtain ⟨hndN, hndE, hends⟩ := hwf
  obtain ⟨hselN, hselE, hhasN, hhasE, hinc, hin, hout⟩ := hfeas
  have hndF : ((selectedSubgraph g sel).edges.map (fun e => (e.src, e.tgt))).Nodup := by
    have hsub : (selectedSubgraph g sel).edges.Sublist g.edges := List.filter_sublist _
    exact hndE.sublist (hsub.map _)
  apply (List.perm_ext_iff_of_nodup hndF hselE).mpr
  intro k
  constructor
  · intro hk
    rcases List.mem_map.mp hk with ⟨e, hemem, rfl⟩
    exact of_decide_eq_true (List.mem_filter.mp hemem).2
  · intro hk
    obtain ⟨e, he, hs, ht⟩ := exists_edge_of_hasEdge g k.1 k.2 (hhasE k hk)
    apply List.mem_map.mpr
    refine ⟨e, ?_, by rw [hs, ht]⟩
    apply List.mem_filter.mpr
    refine ⟨he, decide_eq_true ?_⟩
    rw [hs, ht]
    exact hk

/-- In-degree in the selected subgraph equals the selected in-degree. -/
theorem selectedSubgraph_inDeg (g : Graph) (sel : Selection)
    (hwf : WFGraph g) (hfeas : feasible g sel) (i : ℕ) :
    gInDeg (selectedSubgraph g sel) i = selInDeg sel i := by
  have hperm := selectedSubgraph_edge_keys_perm g sel hwf hfeas
  unfold gInDeg selInDeg
  calc ((selectedSubgraph g sel).edges.filter (fun e => e.tgt == i)).length
      = (selectedSubgraph g sel).edges.countP (fun e => e.tgt == i) :=
        (List.countP_eq_length_filter _ _).symm
    _ = ((selectedSubgraph g sel).edges.map (fun e => (e.src, e.tgt))).countP
          (fun k => k.2 == i) := by
        rw [List.countP_map]
        rfl
    _ = sel.selEdges.countP (fun k => k.2 == i) := hperm.countP_eq _
    _ = (sel.selEdges.filter (fun k => k.2 == i)).length := List.countP_eq_length_filter _ _

/-- Out-degree in the selected subgraph equals the selected out-degree. -/
theorem selectedSubgraph_outDeg (g : Graph) (sel : Selection)
    (hwf : WFGraph g) (hfeas : feasible g sel) (i : ℕ) :
    gOutDeg (selectedSubgraph g sel) i = selOutDeg sel i := by
  have hperm := selectedSubgraph_edge_keys_perm g sel hwf hfeas
  unfold gOutDeg selOutDeg
  calc ((selectedSubgraph g sel).edges.filter (fun e => e.src == i)).length
      = (selectedSubgraph g sel).edges.countP (fun e => e.src == i) :=
        (List.countP_eq_length_filter _ _).symm
    _ = ((selectedSubgraph g sel).edges.map (fun e => (e.src, e.tgt))).countP
          (fun k => k.1 == i) := by
        rw [List.countP_map]
        rfl
    _ = sel.selEdges.countP (fun k => k.1 == i) := hperm.countP_eq _
    _ = (sel.selEdges.filter (fun k => k.1 == i)).length := List.countP_eq_length_filter _ _

/-- `MaxParents 1` holds for every id, selected or not. -/
theorem selInDeg_le_one (g : Graph) (sel : Selection) (hfeas : feasible g sel) :
    ∀ i, selInDeg sel i ≤ 1 := by
  obtain ⟨hselN, hselE, hhasN, hhasE, hinc, hin, hout⟩ := hfeas
  intro i
  by_cases hi : i ∈ sel.selNodes
  · exact hin i hi
  · unfold selInDeg
    rw [List.filter_eq_nil_iff.mpr ?_]
    · simp
    · intro e he
      simp only [beq_iff_eq]
      intro hc
      exact hi (hc ▸ (hinc e he).2)

/-- `MaxChildren 2` holds for every id, selected or not. -/
theorem selOutDeg_le_two (g : Graph) (sel : Selection) (hfeas : feasible g sel) :
    ∀ i, selOutDeg sel i ≤ 2 := by
  obtain ⟨hselN, hselE, hhasN, hhasE, hinc, hin, hout⟩ := hfeas
  intro i
  by_cases hi : i ∈ sel.selNodes
  · exact hout i hi
  · unfold selOutDeg
    rw [List.filter_eq_nil_iff.mpr ?_]
    · simp
    · intro e he
      simp only [beq_iff_eq]
      intro hc
      exact hi (hc ▸ (hinc e he).1)

/-- A selected node is a node of the selected subgraph. -/
theorem hasNode_selectedSubgraph (g : Graph) (sel : Selection)
    (hfeas : feasible g sel) (i : ℕ) (hi : i ∈ sel.selNodes) :
    hasNode (selectedSubgraph g sel) i := by
  obtain ⟨hselN, hselE, hhasN, hhasE, hinc, hin, hout⟩ := hfeas
  have hg : hasNode g i := hhasN i hi
  rw [hasNode_iff_mem_map] at hg ⊢
  rcases List.mem_map.mp hg with ⟨n, hn, hni⟩
  apply List.mem_map.mpr
  refine ⟨n, ?_, hni⟩
  apply List.mem_filter.mpr
  refine ⟨hn, decide_eq_true ?_⟩
  rw [hni]
  exact hi

/-- `find?` ignores a filter that every `p`-match passes. -/
theorem find?_filter_of_pass {α : Type} (p q : α → Bool) (L : List α)
    (h : ∀ x ∈ L, p x = true → q x = true) :
    (L.filter q).find? p = L.find? p := by
  induction L with
  | nil => rfl
  | cons a rest ih =>
    have hrest := ih (fun x hx => h x (List.mem_cons_of_mem a hx))
    cases hqa : q a with
    | true =>
      rw [List.filter_cons, if_pos hqa]
      cases hpa : p a with
      | true => simp [List.find?_cons, hpa]
      | false => simp [List.find?_cons, hpa, hrest]
    | false =>
      have hpa : p a = false := by
        cases hpa2 : p a with
        | false => rfl
        | true =>
          rw [h a (List.mem_cons_self a rest) hpa2] at hqa
          cases hqa
      rw [List.filter_cons, if_neg (by simp [hqa]), hrest]
      simp [List.find?_cons, hpa]

/-- Looking up a selected node in the selected subgraph finds the candidate
graph's record. -/
theorem findNode?_selectedSubgraph (g : Graph) (sel : Selection) (i : ℕ)
    (hi : i ∈ sel.selNodes) :
    findNode? (selectedSubgraph g sel) i = findNode? g i := by
  unfold findNode? selectedSubgraph
  dsimp only
  apply find?_filter_of_pass
  intro n _ hp
  have hni : n.id = i := by simpa using hp
  refine decide_eq_true ?_
  rw [hni]
  exact hi

/-- Frames of selected nodes agree between the candidate graph and the
selected subgraph. -/
theorem timeOf_selectedSubgraph (g : Graph) (sel : Selection) (i : ℕ)
    (hi : i ∈ sel.selNodes) :
    timeOf (selectedSubgraph g sel) i = timeOf g i := by
  unfold timeOf
  rw [findNode?_selectedSubgraph g sel i hi]

/-- Edges of the selected subgraph link strictly adjacent frames whenever the
candidate graph's do. -/
theorem selectedSubgraph_adj (g : Graph) (sel : Selection) (hwf : WFGraph g)
    (hfeas : feasible g sel)
    (hadj : ∀ e ∈ g.edges, timeOf g e.tgt = timeOf g e.src + 1) :
    ∀ e ∈ (selectedSubgraph g sel).edges,
      timeOf (selectedSubgraph g sel) e.tgt = timeOf (selectedSubgraph g sel) e.src + 1 := by
  intro e he
  have hmem := List.mem_filter.mp he
  have hkey : (e.src, e.tgt) ∈ sel.selEdges := of_decide_eq_true hmem.2
  have hends := hfeas.2.2.2.2.1 _ hkey
  rw [timeOf_selectedSubgraph g sel e.tgt hends.2, timeOf_selectedSubgraph g sel e.src hends.1]
  exact hadj e hmem.1

/-- Endpoints of selected edges are nodes of the selected subgraph. -/
theorem selectedSubgraph_ends (g : Graph) (sel : Selection) (hfeas : feasible g sel) :
    ∀ e ∈ (selectedSubgraph g sel).edges,
      hasNode (selectedSubgraph g sel) e.src ∧ hasNode (selectedSubgraph g sel) e.tgt := by
  intro e he
  have hkey : (e.src, e.tgt) ∈ sel.selEdges := of_decide_eq_true (List.mem_filter.mp he).2
  have hends := hfeas.2.2.2.2.1 _ hkey
  exact ⟨hasNode_selectedSubgraph g sel hfeas _ hends.1,
         hasNode_selectedSubgraph g sel hfeas _ hends.2⟩

/-- C5: every solution graph returned by any of the three solver
configurations (`solve_basic_optimization`, `solve_appear_optimization`,
`solve_drift_optimization` — any edge-cost values) on a well-formed
candidate graph whose edges link strictly adjacent frames satisfies:
in-degree ≤ 1 and out-degree ≤ 2 for every node, every edge goes from frame
t to frame t + 1, and the graph is a disjoint union of weakly-connected
trees rooted at in-degree-0 nodes — every node's parent chain ends at an
in-degree-0 root node of the graph that reaches the node by a directed path,
two nodes are weakly connected exactly when they share that root, and every
in-degree-0 node is its own root. -/
theorem solver_solution_structure (ec : ℕ → ℕ → ℚ) (g : Graph) (sg : Graph)
    (hwf : WFGraph g)
    (hadj : ∀ e ∈ g.edges, timeOf g e.tgt = timeOf g e.src + 1)
    (hsg : sg ∈ solve_basic_optimization ec g ∨ sg ∈ solve_appear_optimization ec g ∨
           sg ∈ solve_drift_optimization ec g) :
    (∀ i, gInDeg sg i ≤ 1) ∧
    (∀ i, gOutDeg sg i ≤ 2) ∧
    (∀ e ∈ sg.edges, timeOf sg e.tgt = timeOf sg e.src + 1) ∧
    (∀ i, hasNode sg i →
      hasNode sg (rootOf sg i) ∧ gInDeg sg (rootOf sg i) = 0 ∧ Reaches sg (rootOf sg i) i ∧
      (∀ j, WConn sg i j ↔ rootOf sg i = rootOf sg j)) ∧
    (∀ i, gInDeg sg i = 0 → rootOf sg i = i) := by
  have hex : ∃ sel, feasible g sel ∧ sg = selectedSubgraph g sel := by
    rcases hsg with h | h | h
    · obtain ⟨sel, hopt, heq⟩ := h
      exact ⟨sel, hopt.1, heq⟩
    · obtain ⟨sel, hopt, heq⟩ := h
      exact ⟨sel, hopt.1, heq⟩
    · obtain ⟨sel, hopt, heq⟩ := h
      exact ⟨sel, hopt.1, heq⟩
  obtain ⟨sel, hfeas, rfl⟩ := hex
  have H1 : ∀ i, gInDeg (selectedSubgraph g sel) i ≤ 1 := fun i => by
    rw [selectedSubgraph_inDeg g sel hwf hfeas]
    exact selInDeg_le_one g sel hfeas i
  have H2 : ∀ i, gOutDeg (selectedSubgraph g sel) i ≤ 2 := fun i => by
    rw [selectedSubgraph_outDeg g sel hwf hfeas]
    exact selOutDeg_le_two g sel hfeas i
  have Hadj := selectedSubgraph_adj g sel hwf hfeas hadj
  have Hend := selectedSubgraph_ends g sel hfeas
  have Hpt : ∀ i p, parentOf (selectedSubgraph g sel) i = some p →
      timeOf (selectedSubgraph g sel) i = timeOf (selectedSubgraph g sel) p + 1 := by
    intro i p hp
    obtain ⟨e, he, hs, ht⟩ := parentOf_edge _ i p hp
    have h2 := Hadj e he
    rw [hs, ht] at h2
    exact h2
  have hroot := rootOf_facts (selectedSubgraph g sel) Hpt Hend
  refine ⟨H1, H2, Hadj, ?_, ?_⟩
  · intro i hi
    exact ⟨(hroot i).2.2 hi, (hroot i).1, (hroot i).2.1,
      fun j => wconn_iff_rootOf _ H1 Hpt Hend i j⟩
  · intro i h0
    exact rootOf_parent_none _ i ((parentOf_none_iff _ i).mpr h0)

/-- The empty assignment costs 0. -/
theorem totalCost_empty (cfg : CostConfig) (g : Graph) :
    totalCost cfg g ⟨[], []⟩ = 0 := by
  unfold totalCost
  simp

/-- The empty assignment is feasible on every candidate graph. -/
theorem feasible_empty (g : Graph) : feasible g ⟨[], []⟩ :=
  ⟨List.nodup_nil, List.nodup_nil,
   fun i hi => absurd hi (List.not_mem_nil i),
   fun e he => absurd he (List.not_mem_nil e),
   fun e he => absurd he (List.not_mem_nil e),
   fun i hi => absurd hi (List.not_mem_nil i),
   fun i hi => absurd hi (List.not_mem_nil i)⟩

/-- The empty assignment induces the empty solution graph. -/
theorem selectedSubgraph_empty (g : Graph) :
    selectedSubgraph g ⟨[], []⟩ = ⟨[], []⟩ := by
  unfold selectedSubgraph
  simp

/-- With non-negative cost values every feasible assignment has non-negative
objective. -/
theorem totalCost_nonneg (cfg : CostConfig) (g : Graph) (sel : Selection)
    (hfeas : feasible g sel)
    (hec : ∀ u v, hasEdge g u v → 0 ≤ cfg.edgeCost u v)
    (ha : 0 ≤ cfg.appearConst) (hs : 0 ≤ cfg.splitConst) :
    0 ≤ totalCost cfg g sel := by
  unfold totalCost
  have h1 : 0 ≤ (sel.selEdges.map (fun e => cfg.edgeCost e.1 e.2)).sum := by
    apply List.sum_nonneg
    intro x hx
    rcases List.mem_map.mp hx with ⟨e, he, rfl⟩
    exact hec e.1 e.2 (hfeas.2.2.2.1 e he)
  have h2 : (0 : ℚ) ≤ cfg.appearConst *
      ((sel.selNodes.filter (fun i => appears cfg g sel i)).length : ℚ) :=
    mul_nonneg ha (by positivity)
  have h3 : (0 : ℚ) ≤ cfg.splitConst *
      ((sel.selNodes.filter (fun i => splits sel i)).length : ℚ) :=
    mul_nonneg hs (by positivity)
  linarith

/-- C6 (amended): a solver constructed with only non-negative-valued cost
terms always admits the EMPTY solution graph (0 nodes, 0 edges) as an
optimal output, because the zero-selection assignment is feasible with
objective value 0 and every other feasible assignment has non-negative cost.
(Emptiness of the unique returned graph is not guaranteed: when another
feasible assignment also costs 0 the solver may return it instead — see the
counterexample.) -/
theorem solver_nonneg_costs_empty_optimal (cfg : CostConfig) (g : Graph)
    (hec : ∀ u v, hasEdge g u v → 0 ≤ cfg.edgeCost u v)
    (ha : 0 ≤ cfg.appearConst) (hs : 0 ≤ cfg.splitConst) :
    (⟨[], []⟩ : Graph) ∈ solverOutputs cfg g ∧
    (Graph.nodes ⟨[], []⟩).length = 0 ∧ (Graph.edges ⟨[], []⟩).length = 0 ∧
    (∀ sel, feasible g sel → 0 ≤ totalCost cfg g sel) := by
  refine ⟨⟨⟨[], []⟩, ⟨feasible_empty g, ?_⟩, (selectedSubgraph_empty g).symm⟩, rfl, rfl, ?_⟩
  · intro sel2 h2
    rw [totalCost_empty]
    exact totalCost_nonneg cfg g sel2 h2 hec ha hs
  · intro sel hf
    exact totalCost_nonneg cfg g sel hf hec ha hs

/-- C6 counterexample to the claim as stated: with the all-zero (hence
non-negative, no negative constant anywhere) cost structure on a two-node
candidate graph, the FULL assignment also has objective 0 and is therefore
optimal too, so a solver may return a 2-node, 1-edge solution graph rather
than the empty one — "always returns the empty solution graph with 0 nodes
and 0 edges" is false; only optimality of the empty solution holds. -/
theorem solver_zero_cost_nonempty_output :
    selectedSubgraph tieGraph tieSel ∈ solverOutputs zeroConfig tieGraph ∧
    (selectedSubgraph tieGraph tieSel).nodes.length = 2 ∧
    (selectedSubgraph tieGraph tieSel).edges.length = 1 := by
  have hcost : ∀ sel, totalCost zeroConfig tieGraph sel = 0 := by
    intro sel
    unfold totalCost zeroConfig
    simp
  exact ⟨⟨tieSel, ⟨by decide, fun sel2 h2 => by rw [hcost, hcost]⟩, rfl⟩, by decide, by decide⟩

/-- Witness for the amended C6 theorem at a strictly positive cost structure
on a one-node candidate graph. -/
theorem solver_nonneg_costs_empty_optimal_witness :
    (⟨[], []⟩ : Graph) ∈ solverOutputs c6WConfig c6WGraph ∧
    (0 : ℚ) ≤ totalCost c6WConfig c6WGraph ⟨[31], []⟩ := by
  obtain ⟨hmem, hn, he, hnn⟩ := solver_nonneg_costs_empty_optimal c6WConfig c6WGraph
    (fun u v h => by norm_num [c6WConfig]) (by norm_num [c6WConfig]) (by norm_num [c6WConfig])
  exact ⟨hmem, hnn ⟨[31], []⟩ (by decide)⟩

/-- Witness for C5 at a concrete division: ids 41 → {42, 43} plus a separate
track start 44, solved by the appear-aware configuration with all ignore
flags set (every feasible assignment then costs 0, so the full selection is
optimal). The division children share the root 41; the separate track is a
separate tree. -/
theorem solver_solution_structure_witness :
    (∀ i, gInDeg (selectedSubgraph c5WGraph c5WSel) i ≤ 1) ∧
    (∀ i, gOutDeg (selectedSubgraph c5WGraph c5WSel) i ≤ 2) ∧
    rootOf (selectedSubgraph c5WGraph c5WSel) 42 = 41 ∧
    WConn (selectedSubgraph c5WGraph c5WSel) 42 43 ∧
    ¬ WConn (selectedSubgraph c5WGraph c5WSel) 42 44 := by
  have hfeas : feasible c5WGraph c5WSel := by decide
  have hcost : ∀ sel, feasible c5WGraph sel →
      totalCost ⟨fun _ _ => 0, 10, true, 0⟩ c5WGraph sel = 0 := by
    intro sel hf
    unfold totalCost
    have h1 : (sel.selEdges.map
        (fun e => (fun _ _ => (0 : ℚ)) e.1 e.2)).sum = 0 :=
      List.sum_eq_zero (by
        intro x hx
        rcases List.mem_map.mp hx with ⟨e, he, rfl⟩
        rfl)
    have h2 : sel.selNodes.filter
        (fun i => appears ⟨fun _ _ => 0, 10, true, 0⟩ c5WGraph sel i) = [] := by
      apply List.filter_eq_nil_iff.mpr
      intro i hi
      have hhas := hf.2.2.1 i hi
      rw [hasNode_iff_mem_map] at hhas
      have hid : i = 41 ∨ i = 42 ∨ i = 43 ∨ i = 44 := by
        simpa [c5WGraph] using hhas
      have hig : ignoreAppearOf c5WGraph i = true := by
        rcases hid with rfl | rfl | rfl | rfl <;> decide
      simp [appears, hig]
    rw [h1, h2]
    simp
  have hmem : selectedSubgraph c5WGraph c5WSel ∈
      solve_appear_optimization (fun _ _ => 0) c5WGraph :=
    ⟨c5WSel, ⟨hfeas, fun sel2 h2 => by rw [hcost c5WSel hfeas, hcost sel2 h2]⟩, rfl⟩
  obtain ⟨h1, h2, h3, h4, h5⟩ := solver_solution_structure (fun _ _ => 0) c5WGraph _
    (by decide) (by decide) (Or.inr (Or.inl hmem))
  have hroot42 : rootOf (selectedSubgraph c5WGraph c5WSel) 42 = 41 := by decide
  refine ⟨h1, h2, hroot42, ?_, ?_⟩
  · have h42 := h4 42 (by decide)
    exact (h42.2.2.2 43).mpr (by decide)
  · have h42 := h4 42 (by decide)
    intro hw
    have heq := (h42.2.2.2 44).mp hw
    rw [hroot42, show rootOf (selectedSubgraph c5WGraph c5WSel) 44 = 44 from by decide] at heq
    exact absurd heq (by decide)
